import Mathlib

/-!
Verification development for the embedded terminal session engine of the
worktree-manager application.

The definitions below are a shallow embedding of the Python sources:

- src/ui/pty_terminal.py : ANSIColorParser (SGR state machine, 256-color
  palette) and PTYTerminalWidget._process_buffered_data (the incremental
  ANSI stream decoder with its partial-sequence buffer).
- src/ui/web_terminal.py : TerminalBridge (inactivity detector state
  machine, PTY cleanup).
- src/session.py : SessionManager (register_session, get_session,
  remove_session).
- src/ui/terminal_pane.py : TerminalPane.run_claude_here (get-or-create
  of a session for a worktree path).

Modelling conventions:

- The byte stream is modelled at the decoded-character level (the Python
  code decodes UTF-8 with replacement before any parsing; all parsing is
  on str).  Regular-expression operations of the source are realized as
  explicit left-to-right scanners with the same match semantics
  (leftmost match, continue after the match, one-character advance on
  failure).
- Numeric SGR parameters are modelled as unsigned decimal numerals, the
  only shape the SGR capture group [0-9;]* can produce; a string that is
  not a nonempty digit string raises ValueError in Python, modelled as
  Option.none.
- Qt side effects (widget text insertion, cursor moves, process signals,
  descriptor closes) are reified as explicit operation/event lists.
- Wall-clock instants (time.time()) are rationals.
-/

namespace TermEngine

/-- The escape character ESC = chr(27). -/
def esc : Char := '\x1b'

/-- Characters allowed inside an SGR parameter run: the regex class [0-9;]. -/
def isParamChar (c : Char) : Bool := c.isDigit || c == ';'

/-- Python s1 in s2 when s1 is a prefix of s2 (helper for substring search). -/
def startsWithL : List Char → List Char → Bool
  | [], _ => true
  | _ :: _, [] => false
  | p :: ps, c :: cs => p == c && startsWithL ps cs

/-- Python substring containment pat in t, scanning left to right. -/
def hasSubstr (pat : List Char) : List Char → Bool
  | [] => startsWithL pat []
  | c :: cs => startsWithL pat (c :: cs) || hasSubstr pat cs

/-- Python str.split(sep): splitOnChar sep l lists the separator-free
segments of l, keeping empty segments, as str.split does. -/
def splitOnChar (sep : Char) : List Char → List (List Char)
  | [] => [[]]
  | c :: cs =>
    match splitOnChar sep cs with
    | [] => [[c]]
    | h :: t => if c == sep then [] :: h :: t else (c :: h) :: t

/-- Last element of a list of segments (Python xs[-1]); [] for the
impossible empty case. -/
def lastSeg : List (List Char) → List Char
  | [] => []
  | [x] => x
  | _ :: xs => lastSeg xs

/-- Python text.replace(chr(13) ++ chr(10), chr(10)): normalize CRLF to
LF, scanning left to right without rescanning replaced text. -/
def normCRLF : List Char → List Char
  | [] => []
  | [c] => [c]
  | c :: d :: rest =>
    if c == '\r' && d == '\n' then '\n' :: normCRLF rest
    else c :: normCRLF (d :: rest)

/-- One segment's same-line redraw collapse: p.split(chr(13))[-1]. -/
def crSegment (p : List Char) : List Char := lastSeg (splitOnChar '\r' p)

/-- The carriage-return collapse of _process_buffered_data: split the text
on LF, keep only what follows the last CR of each segment, rejoin. -/
def crCollapse (t : List Char) : List Char :=
  List.intercalate ['\n'] ((splitOnChar '\n' t).map crSegment)

/-! ### Scanner matchers, one per regular expression of the source

Each matcher tries its pattern anchored at the head of the list and
returns the rest of the input after the match. -/

/-- Matcher for the clear-screen class: the regex ESC bracket [23] J. -/
def matchClearJ : List Char → Option (List Char)
  | a :: b :: c :: d :: r =>
    if a == esc && b == '[' && (c == '2' || c == '3') && d == 'J' then some r
    else none
  | _ => none

/-- Matcher for the literal cursor-home string ESC bracket H. -/
def matchHome : List Char → Option (List Char)
  | a :: b :: c :: r =>
    if a == esc && b == '[' && c == 'H' then some r else none
  | _ => none

/-- Matcher for the literal erase-line string ESC bracket K. -/
def matchEscK : List Char → Option (List Char)
  | a :: b :: c :: r =>
    if a == esc && b == '[' && c == 'K' then some r else none
  | _ => none

/-- Matcher for cursor-visibility sequences: ESC bracket question-mark,
one or more digits, then the letter l or h. -/
def matchCursorVis : List Char → Option (List Char)
  | a :: b :: q :: rest =>
    if a == esc && b == '[' && q == '?' then
      match rest.takeWhile Char.isDigit, rest.dropWhile Char.isDigit with
      | [], _ => none
      | _ :: _, c :: r => if c == 'l' || c == 'h' then some r else none
      | _ :: _, [] => none
    else none
  | _ => none

/-- Matcher for absolute cursor positioning: ESC bracket digits
semicolon digits H. -/
def matchCursorPos : List Char → Option (List Char)
  | a :: b :: rest =>
    if a == esc && b == '[' then
      match rest.takeWhile Char.isDigit, rest.dropWhile Char.isDigit with
      | [], _ => none
      | _ :: _, ';' :: r2 =>
        match r2.takeWhile Char.isDigit, r2.dropWhile Char.isDigit with
        | [], _ => none
        | _ :: _, 'H' :: r3 => some r3
        | _, _ => none
      | _, _ => none
    else none
  | _ => none

/-- Matcher for column and line operations: ESC bracket, zero or more
digits, then one of the letters G K J. -/
def matchColOps : List Char → Option (List Char)
  | a :: b :: rest =>
    if a == esc && b == '[' then
      match rest.dropWhile Char.isDigit with
      | c :: r => if c == 'G' || c == 'K' || c == 'J' then some r else none
      | [] => none
    else none
  | _ => none

/-- Matcher for a complete SGR sequence ESC bracket params m, returning
the captured parameter run and the rest.  The source's lazy quantifier
[0-9;]*? followed by the terminator m is equivalent to the maximal
parameter run followed by m, because m is not a parameter character. -/
def matchSGR : List Char → Option (List Char × List Char)
  | a :: b :: rest =>
    if a == esc && b == '[' then
      match rest.dropWhile isParamChar with
      | 'm' :: r => some (rest.takeWhile isParamChar, r)
      | _ => none
    else none
  | _ => none

/-- Generic left-to-right deleting scan realizing re.sub(pat, empty, t)
and str.replace(pat, empty): at each position, delete a match and
continue after it, otherwise keep one character and advance.  The first
argument is fuel consumed once per step; a fuel list at least as long as
the text (every matcher consumes at least one character) makes the fuel
case unreachable. -/
def scrubAux (m : List Char → Option (List Char)) :
    List Char → List Char → List Char
  | _, [] => []
  | [], t => t
  | _ :: fs, c :: cs =>
    match m (c :: cs) with
    | some r => scrubAux m fs r
    | none => c :: scrubAux m fs cs

/-- Deleting scan with adequate fuel. -/
def scrub (m : List Char → Option (List Char)) (t : List Char) : List Char :=
  scrubAux m t t

/-! ### ANSI color state (class ANSIColorParser of pty_terminal.py) -/

/-- An RGB triple as built by QColor(r, g, b); components are the raw
integers the source passes (not clamped, as in the source). -/
structure RGB where
  r : Nat
  g : Nat
  b : Nat
deriving DecidableEq, Repr

/-- The 16-entry palette COLORS of ANSIColorParser (keys 30-37, 90-97). -/
def colorTable (n : Nat) : Option RGB :=
  if n = 30 then some ⟨0, 0, 0⟩
  else if n = 31 then some ⟨205, 49, 49⟩
  else if n = 32 then some ⟨13, 188, 121⟩
  else if n = 33 then some ⟨229, 229, 16⟩
  else if n = 34 then some ⟨36, 114, 200⟩
  else if n = 35 then some ⟨188, 63, 188⟩
  else if n = 36 then some ⟨17, 168, 205⟩
  else if n = 37 then some ⟨229, 229, 229⟩
  else if n = 90 then some ⟨102, 102, 102⟩
  else if n = 91 then some ⟨241, 76, 76⟩
  else if n = 92 then some ⟨35, 209, 139⟩
  else if n = 93 then some ⟨245, 245, 67⟩
  else if n = 94 then some ⟨59, 142, 234⟩
  else if n = 95 then some ⟨214, 112, 214⟩
  else if n = 96 then some ⟨41, 184, 219⟩
  else if n = 97 then some ⟨255, 255, 255⟩
  else none

/-- BG_COLORS of ANSIColorParser: foreground entry shifted by 10. -/
def bgColorTable (n : Nat) : Option RGB := colorTable (n - 10)

/-- Default white foreground QColor(255, 255, 255). -/
def white : RGB := ⟨255, 255, 255⟩

/-- Default black background QColor(0, 0, 0). -/
def black : RGB := ⟨0, 0, 0⟩

/-- The mutable style fields of ANSIColorParser. -/
structure ParserState where
  fgColor : RGB
  bgColor : RGB
  bold : Bool
  italic : Bool
  underline : Bool
deriving DecidableEq, Repr

/-- ANSIColorParser.reset(): white on black, all attributes off. -/
def resetState : ParserState :=
  { fgColor := white, bgColor := black,
    bold := false, italic := false, underline := false }

/-- ANSIColorParser._get_256_color: convert a 256-color palette index to
an RGB color, exactly as the source computes it. -/
def get_256_color (index : Nat) : RGB :=
  if index < 16 then (colorTable (30 + index % 8)).getD white
  else if index < 232 then
    let i := index - 16
    ⟨i / 36 * 51, i % 36 / 6 * 51, i % 6 * 51⟩
  else
    let gray := (index - 232) * 10 + 8
    ⟨gray, gray, gray⟩

/-- Python int(s) on an SGR parameter: defined exactly for nonempty digit
strings (ValueError, hence none, otherwise). -/
def pyIntStrict (l : List Char) : Option Nat :=
  if l ≠ [] ∧ l.all Char.isDigit then
    some (l.foldl (fun a c => a * 10 + (c.toNat - 48)) 0)
  else none

/-- The source's top-of-loop value: int(part) if part else 0. -/
def pyNum (l : List Char) : Option Nat :=
  if l = [] then some 0 else pyIntStrict l

/-- The extended-color branch for codes 38 (foreground, fg true) and 48
(background): a following 2 consumes three parameters as 24-bit RGB, a
following 5 consumes one parameter as a 256-palette index; a ValueError
on any lookahead parameter abandons the branch having consumed only the
introducing code (the untouched rest); insufficient parameters skip the
color-type parameter as well. -/
def extendedColor (st : ParserState) (fg : Bool) (rest : List (List Char)) :
    ParserState × List (List Char) :=
  match rest with
  | [] => (st, [])
  | t :: rest2 =>
    match pyIntStrict t with
    | none => (st, rest)
    | some ct =>
      if ct = 2 then
        match rest2 with
        | rv :: gv :: bv :: rest5 =>
          match pyIntStrict rv, pyIntStrict gv, pyIntStrict bv with
          | some r, some g, some b =>
            (if fg then { st with fgColor := ⟨r, g, b⟩ }
             else { st with bgColor := ⟨r, g, b⟩ }, rest5)
          | _, _, _ => (st, rest)
        | _ => (st, rest2)
      else if ct = 5 then
        match rest2 with
        | idx :: rest3 =>
          match pyIntStrict idx with
          | some i =>
            (if fg then { st with fgColor := get_256_color i }
             else { st with bgColor := get_256_color i }, rest3)
          | none => (st, rest)
        | [] => (st, rest2)
      else (st, rest2)

/-- Dispatch over one numeric SGR parameter of
ANSIColorParser.parse_escape_sequence: consume the head parameter plus
any lookahead parameters of the extended-color codes 38 and 48,
returning the updated style state and the parameters still to
process. -/
def sgrStepNum (st : ParserState) (n : Nat) (rest : List (List Char)) :
    ParserState × List (List Char) :=
  if n = 0 then (resetState, rest)
  else if n = 1 then ({ st with bold := true }, rest)
  else if n = 3 then ({ st with italic := true }, rest)
  else if n = 4 then ({ st with underline := true }, rest)
  else if n = 22 then ({ st with bold := false }, rest)
  else if n = 23 then ({ st with italic := false }, rest)
  else if n = 24 then ({ st with underline := false }, rest)
  else if (30 ≤ n ∧ n ≤ 37) ∨ (90 ≤ n ∧ n ≤ 97) then
    ({ st with fgColor := (colorTable n).getD white }, rest)
  else if (40 ≤ n ∧ n ≤ 47) ∨ (100 ≤ n ∧ n ≤ 107) then
    ({ st with bgColor := (bgColorTable n).getD black }, rest)
  else if n = 38 then extendedColor st true rest
  else if n = 48 then extendedColor st false rest
  else if n = 39 then ({ st with fgColor := white }, rest)
  else if n = 49 then ({ st with bgColor := black }, rest)
  else (st, rest)

/-- One step of the parameter loop: a parameter that does not parse as
an integer is skipped (the caught ValueError), a numeric parameter is
dispatched on its value. -/
def sgrStep (st : ParserState) (part : List Char) (rest : List (List Char)) :
    ParserState × List (List Char) :=
  match pyNum part with
  | none => (st, rest)
  | some n => sgrStepNum st n rest

/-- The parameter loop: fold sgrStep over the list.  The first argument
is fuel, consumed once per loop step; since every step consumes at
least one parameter, fuel as long as the parameter list makes the
fuel-exhausted case unreachable. -/
def applyCodesAux (st : ParserState) :
    List (List Char) → List (List Char) → ParserState
  | _, [] => st
  | [], _ => st
  | _ :: fs, part :: rest =>
    match sgrStep st part rest with
    | (st2, rem) => applyCodesAux st2 fs rem

/-- The parameter loop with adequate fuel. -/
def applyCodes (st : ParserState) (parts : List (List Char)) : ParserState :=
  applyCodesAux st parts parts

/-- ANSIColorParser.parse_escape_sequence on a captured parameter string:
an empty capture is treated as the single code 0, then the codes are
split on semicolons and folded over the state.  The QTextCharFormat the
Python function also returns is ignored by its only caller, so the model
keeps the state transition only. -/
def parse_escape_sequence (st : ParserState) (codes : List Char) : ParserState :=
  applyCodes st (splitOnChar ';' (if codes.isEmpty then ['0'] else codes))

/-- A style snapshot as produced by get_current_format. -/
structure Style where
  fg : RGB
  bg : RGB
  bold : Bool
  italic : Bool
  underline : Bool
deriving DecidableEq, Repr

/-- ANSIColorParser.get_current_format. -/
def get_current_format (st : ParserState) : Style :=
  { fg := st.fgColor, bg := st.bgColor,
    bold := st.bold, italic := st.italic, underline := st.underline }

/-! ### The render-operation stream of _process_buffered_data

Each Qt side effect of PTYTerminalWidget._process_buffered_data is one
operation: self.clear() on a clear-screen sequence, the cursor move to
the document start on cursor-home, the select-and-remove of the current
line that precedes a carriage-return overwrite, and each styled text
insertion.  An overwrite of the current line is therefore the operation
clearCurrentLine followed by the insert that carries the new content. -/
inductive RenderOp where
  | clearScreen
  | cursorHome
  | clearCurrentLine
  | insert (text : List Char) (style : Style)
deriving DecidableEq, Repr

/-- The finditer loop over the SGR pattern: scan the text left to right;
plain characters accumulate in pend (reversed); a complete SGR sequence
first flushes the pending run as one insert styled with the current
format, then folds its parameters into the state.  Returns the emitted
operations, the final state, and the text after the last match.  The
third argument is fuel, consumed once per step; fuel at least as long
as the text makes the fuel-exhausted case unreachable because a match
consumes at least one character. -/
def sgrScanAux (st : ParserState) (pend : List Char) :
    List Char → List Char → List RenderOp × ParserState × List Char
  | _, [] => ([], st, pend.reverse)
  | [], u => ([], st, pend.reverse ++ u)
  | _ :: fs, c :: cs =>
    match matchSGR (c :: cs) with
    | some (ps, rest) =>
      let opsHere : List RenderOp :=
        if pend.isEmpty then [] else [.insert pend.reverse (get_current_format st)]
      let st2 := parse_escape_sequence st ps
      let next := sgrScanAux st2 [] fs rest
      (opsHere ++ next.1, next.2.1, next.2.2)
    | none => sgrScanAux st (c :: pend) fs cs

/-- The SGR scan with adequate fuel. -/
def sgrScan (st : ParserState) (t : List Char) :
    List RenderOp × ParserState × List Char :=
  sgrScanAux st [] t t

/-- Whole-suffix test for the end-of-buffer pattern ESC bracket followed
by parameter characters only (the search anchored at end of string). -/
def isIncompleteSGR : List Char → Bool
  | a :: b :: rest => a == esc && b == '[' && rest.all isParamChar
  | _ => false

/-- The re.search for an unterminated trailing SGR sequence: the
leftmost position from which the rest of the text is ESC bracket plus
parameter characters.  Returns (complete prefix, retained suffix). -/
def incompleteSplit : List Char → List Char × List Char
  | [] => ([], [])
  | c :: cs =>
    if isIncompleteSGR (c :: cs) then ([], c :: cs)
    else
      match incompleteSplit cs with
      | (comp, keep) => (c :: comp, keep)

/-- Literal strings tested with the Python in operator. -/
def seq2J : List Char := [esc, '[', '2', 'J']

/-- Literal clear-screen variant ESC bracket 3 J. -/
def seq3J : List Char := [esc, '[', '3', 'J']

/-- Literal cursor-home string ESC bracket H. -/
def seqHome : List Char := [esc, '[', 'H']

/-- Literal CRLF pair. -/
def seqCRLF : List Char := ['\r', '\n']

/-- PTYTerminalWidget._process_buffered_data on the current buffer
contents: returns the emitted render operations, the color-parser state
after the call, and the new partial-sequence buffer. -/
def process_buffered_data (st : ParserState) (data : List Char) :
    List RenderOp × ParserState × List Char :=
  let text0 := data
  let clearHit := hasSubstr seq2J text0 || hasSubstr seq3J text0
  let ops1 : List RenderOp := if clearHit then [.clearScreen] else []
  let st1 := if clearHit then resetState else st
  let text1 := if clearHit then scrub matchClearJ text0 else text0
  let homeHit := hasSubstr seqHome text1
  let ops2 : List RenderOp := if homeHit then [.cursorHome] else []
  let text2 := if homeHit then scrub matchHome text1 else text1
  let text3 := scrub matchCursorVis text2
  let text4 := scrub matchCursorPos text3
  let text5 := scrub matchColOps text4
  let text6 := scrub matchEscK text5
  let text7 := if hasSubstr seqCRLF text6 then normCRLF text6 else text6
  let crHit := hasSubstr ['\r'] text7
  let ops3 : List RenderOp := if crHit then [.clearCurrentLine] else []
  let text8 := if crHit then crCollapse text7 else text7
  let scanned := sgrScan st1 text8
  let split := incompleteSplit scanned.2.2
  let ops5 : List RenderOp :=
    if split.1.isEmpty then []
    else [.insert split.1 (get_current_format scanned.2.1)]
  (ops1 ++ ops2 ++ ops3 ++ scanned.1 ++ ops5, scanned.2.1, split.2)

/-- The per-widget state the incremental decoder carries between reads:
the color-parser state and the partial-sequence buffer data_buffer. -/
structure TermView where
  ansi : ParserState
  buffer : List Char
deriving DecidableEq, Repr

/-- A fresh PTYTerminalWidget: default colors and an empty buffer. -/
def initView : TermView := { ansi := resetState, buffer := [] }

/-- PTYTerminalWidget._on_data_received for one decoded chunk: append to
the buffer, then process the whole buffer. -/
def feed (tv : TermView) (chunk : List Char) : List RenderOp × TermView :=
  let out := process_buffered_data tv.ansi (tv.buffer ++ chunk)
  (out.1, { ansi := out.2.1, buffer := out.2.2 })

/-- The render operations produced by feeding a list of chunks in order,
carrying the buffer and the color state from each call to the next. -/
def feedAll (tv : TermView) : List (List Char) → List RenderOp
  | [] => []
  | c :: cs =>
    match feed tv c with
    | (ops, tv2) => ops ++ feedAll tv2 cs

/-! ### The inactivity detector and PTY bridge (web_terminal.py) -/

/-- INACTIVITY_TIMER of web_terminal.py, in seconds. -/
def INACTIVITY_TIMER : ℚ := 3

/-- The mutable state of TerminalBridge that the claims are about. -/
structure Bridge where
  masterFd : Option Nat
  processPid : Option Nat
  running : Bool
  lastOutputTime : Option ℚ
  lastInputTime : Option ℚ
  activitySeen : Bool
  trackingEnabled : Bool
  awaitingOutput : Bool
  inactivityTriggered : Bool
deriving DecidableEq, Repr

/-- A freshly constructed TerminalBridge. -/
def initBridge : Bridge :=
  { masterFd := none, processPid := none, running := false,
    lastOutputTime := none, lastInputTime := none, activitySeen := false,
    trackingEnabled := false, awaitingOutput := false,
    inactivityTriggered := false }

/-- The data branch of TerminalBridge._read_pty: a nonempty output chunk
arrives at instant now. -/
def read_pty_output (b : Bridge) (now : ℚ) : Bridge :=
  { b with
    lastOutputTime := some now
    activitySeen := true
    awaitingOutput := if b.trackingEnabled then false else b.awaitingOutput
    inactivityTriggered :=
      if b.trackingEnabled then false else b.inactivityTriggered }

/-- TerminalBridge.write_to_pty at instant now (the PTY write itself is
an external effect and not part of the detector state). -/
def write_to_pty (b : Bridge) (data : List Char) (now : ℚ) : Bridge :=
  let b1 := { b with lastInputTime := some now, activitySeen := true }
  if data.contains '\r' then
    { b1 with trackingEnabled := true, awaitingOutput := true,
              inactivityTriggered := false, lastOutputTime := none }
  else b1

/-- TerminalBridge._check_inactivity at instant now: returns the updated
state and whether the one-shot idle notification fired. -/
def check_inactivity (b : Bridge) (now : ℚ) : Bridge × Bool :=
  if b.trackingEnabled = false then (b, false)
  else if b.awaitingOutput then (b, false)
  else if b.inactivityTriggered = false ∧ b.activitySeen then
    let stillInteracting : Bool :=
      match b.lastInputTime with
      | some ti => decide (now - ti < INACTIVITY_TIMER)
      | none => false
    if stillInteracting then (b, false)
    else
      match b.lastOutputTime with
      | some t =>
        if now - t ≥ INACTIVITY_TIMER then
          ({ b with inactivityTriggered := true, trackingEnabled := false }, true)
        else (b, false)
      | none => (b, false)
  else (b, false)

/-- TerminalBridge.cleanup events. -/
inductive BridgeEvent where
  | closedFd (fd : Nat)
  | sigTerm (pid : Nat)
deriving DecidableEq, Repr

/-- TerminalBridge.cleanup: stop the loop and timer, close the master
descriptor if still open (clearing the field so a repeat close is
impossible), then signal the child.  process_pid is not cleared by the
source. -/
def cleanup (b : Bridge) : Bridge × List BridgeEvent :=
  let b1 := { b with running := false }
  let closePart : Bridge × List BridgeEvent :=
    match b1.masterFd with
    | some fd => ({ b1 with masterFd := none }, [.closedFd fd])
    | none => (b1, [])
  let killPart : List BridgeEvent :=
    match closePart.1.processPid with
    | some pid => [.sigTerm pid]
    | none => []
  (closePart.1, closePart.2 ++ killPart)

/-- Count of descriptor closes in an event list. -/
def countCloses (evs : List BridgeEvent) : Nat :=
  (evs.filter fun e => match e with | .closedFd _ => true | _ => false).length

/-- The event alphabet driving one bridge: an output chunk, a keyboard
write, or one tick of the one-second inactivity timer.  The source's
enable_tracking method has no caller, so it is not an event. -/
inductive TEvent where
  | output (now : ℚ)
  | input (data : List Char) (now : ℚ)
  | tick (now : ℚ)

/-- One event step: the updated bridge and whether the idle notification
fired on this step. -/
def stepEvent (b : Bridge) : TEvent → Bridge × Bool
  | .output now => (read_pty_output b now, false)
  | .input data now => (write_to_pty b data now, false)
  | .tick now => check_inactivity b now

/-- Run a list of events, counting idle notifications. -/
def runEvents (b : Bridge) : List TEvent → Bridge × Nat
  | [] => (b, 0)
  | e :: es =>
    match stepEvent b e with
    | (b1, fired) =>
      match runEvents b1 es with
      | (b2, n) => (b2, (if fired then 1 else 0) + n)

/-- An event that is a keyboard write containing a carriage return (the
user pressed Enter). -/
def isEnterInput : TEvent → Bool
  | .input data _ => data.contains '\r'
  | _ => false

/-! ### The session registry (session.py and terminal_pane.py) -/

/-- A process handle as the registry sees it: an identity and the result
a call to poll() would return now (none while the process runs). -/
structure Proc where
  pid : Nat
  pollResult : Option Int
deriving DecidableEq, Repr

/-- SessionInfo of models.py. -/
structure SessionInfo where
  worktreePath : String
  process : Option Proc
  containerFrame : Option Nat
  status : String
  command : String
  startTime : ℚ
deriving DecidableEq, Repr

/-- SessionManager.sessions: the worktree-path-keyed map, as an
association list with unique keys (a Python dict). -/
def Manager := List (String × SessionInfo)

/-- Dict lookup self.sessions.get(path). -/
def lookupS : Manager → String → Option SessionInfo
  | [], _ => none
  | (k, v) :: rest, path => if k = path then some v else lookupS rest path

/-- Dict store self.sessions[path] = info: replace in place or append. -/
def insertS : Manager → String → SessionInfo → Manager
  | [], path, info => [(path, info)]
  | (k, v) :: rest, path, info =>
    if k = path then (path, info) :: rest
    else (k, v) :: insertS rest path info

/-- Dict deletion del self.sessions[path].  A dict never holds a key
twice, so deletion is the key filter. -/
def eraseS (m : Manager) (path : String) : Manager :=
  m.filter fun kv => kv.1 ≠ path

/-- Observable side effects of registry operations. -/
inductive SEvent where
  | terminated (pid : Nat)
  | destroyedFrame (f : Nat)
  | launched (pid : Nat)
  | openedExternal
deriving DecidableEq, Repr

/-- SessionManager.register_session: store a fresh running SessionInfo
under the path, overwriting any existing entry; no other effect (the
metrics and log calls touch no session). -/
def register_session (m : Manager) (path : String) (proc : Option Proc)
    (frame : Option Nat) (command : String) (now : ℚ) :
    Manager × List SEvent :=
  (insertS m path
    { worktreePath := path, process := proc,
      containerFrame := frame, status := "running",
      command := command, startTime := now }, [])

/-- SessionManager.remove_session: when the path is present, terminate
the process if it still runs, destroy the container frame if any, and
delete the entry; a no-op otherwise. -/
def remove_session (m : Manager) (path : String) : Manager × List SEvent :=
  match lookupS m path with
  | none => (m, [])
  | some s =>
    let evs1 : List SEvent :=
      match s.process with
      | some p => if p.pollResult = none then [.terminated p.pid] else []
      | none => []
    let evs2 : List SEvent :=
      match s.containerFrame with
      | some f => [.destroyedFrame f]
      | none => []
    (eraseS m path, evs1 ++ evs2)

/-- SessionManager.get_session: return the stored session when its
process is alive; when the stored process has exited, evict through
remove_session and report none; none when absent or without process. -/
def get_session (m : Manager) (path : String) :
    Option SessionInfo × Manager × List SEvent :=
  match lookupS m path with
  | some s =>
    match s.process with
    | some p =>
      if p.pollResult = none then (some s, m, [])
      else
        match remove_session m path with
        | (m2, evs) => (none, m2, evs)
    | none => (none, m, [])
  | none => (none, m, [])

/-- TerminalPane.run_claude_here: with no selected worktree, return;
without embedding, open an external terminal; otherwise reuse a live
session (switch only), or launch a new process and register it.
Returns the registry, the events, and whether a launch happened. -/
def run_claude_here (m : Manager) (canEmbed : Bool) (cwd : Option String)
    (freshProc : Proc) (frame : Nat) (command : String) (now : ℚ) :
    Manager × List SEvent × Bool :=
  match cwd with
  | none => (m, [], false)
  | some path =>
    if canEmbed = false then (m, [.openedExternal], false)
    else
      match get_session m path with
      | (some _, m2, evs) => (m2, evs, false)
      | (none, m2, evs) =>
        match register_session m2 path (some freshProc) (some frame) command now with
        | (m3, evs2) => (m3, evs ++ [.launched freshProc.pid] ++ evs2, true)

/-- A live session is registered for the path: the stored process
polls as still running. -/
def liveAt (m : Manager) (path : String) : Prop :=
  ∃ s p, lookupS m path = some s ∧ s.process = some p ∧ p.pollResult = none

/-- Count of launch events in an event list. -/
def countLaunches (evs : List SEvent) : Nat :=
  (evs.filter fun e => match e with | .launched _ => true | _ => false).length

/-- Does any suffix of t begin with a complete SGR sequence?  False
exactly when the finditer loop finds no match in t. -/
def hasSGRmatch : List Char → Bool
  | [] => false
  | c :: cs => (matchSGR (c :: cs)).isSome || hasSGRmatch cs

/-- Shape of the text that can follow ESC bracket in the streams the
split-invariance theorem quantifies over: parameter characters up to an
optional terminating m, with arbitrary text beyond the m.  Every
non-SGR control-sequence matcher fails on ESC bracket followed by such
a tail. -/
def pTail : List Char → Bool
  | [] => true
  | c :: cs => if c == 'm' then true else isParamChar c && pTail cs

/-! ### Model-side palette, code classification, and the sample
states the witnesses evaluate -/

/-- A sample stored session whose process has exited with status 0. -/
def deadInfo : SessionInfo where
  worktreePath := "/w"
  process := some ⟨7, some 0⟩
  containerFrame := some 1
  status := "running"
  command := "claude"
  startTime := 0

/-- A sample one-entry registry holding the exited session. -/
def deadManager : Manager := [("/w", deadInfo)]

/-- A sample one-entry registry holding a live session. -/
def liveInfo : SessionInfo where
  worktreePath := "/w"
  process := some ⟨7, none⟩
  containerFrame := some 1
  status := "running"
  command := "claude"
  startTime := 0

/-- Registry used by the C2 witness. -/
def liveManager : Manager := [("/w", liveInfo)]

/-- A sample bridge with an open descriptor and a child pid. -/
def openBridge : Bridge :=
  { initBridge with masterFd := some 5, processPid := some 431 }

/-- The bridge state right after the detector fired. -/
def firedBridge : Bridge :=
  { initBridge with
    lastInputTime := some 0
    lastOutputTime := some (1/10)
    activitySeen := true
    trackingEnabled := false
    awaitingOutput := false
    inactivityTriggered := true }

/-- The bridge state of an armed, tracking session. -/
def armedBridge : Bridge :=
  { initBridge with
    lastInputTime := some 0
    lastOutputTime := some 1
    activitySeen := true
    trackingEnabled := true
    awaitingOutput := false
    inactivityTriggered := false }

/-- An armed tracking bridge with very stale output but fresh typing. -/
def typingBridge : Bridge :=
  { initBridge with
    lastInputTime := some 9
    lastOutputTime := some 1
    activitySeen := true
    trackingEnabled := true
    awaitingOutput := false
    inactivityTriggered := false }

/-- Modelled from the spec's words for the refinement comparison: the
16-color palette of section 4.3 has 8 standard entries (codes 30-37)
followed by 8 bright entries (codes 90-97), so palette index i maps to
code 30 + i below 8 and to code 90 + (i - 8) above. -/
def spec_palette16 (i : Nat) : RGB :=
  if i < 8 then (colorTable (30 + i)).getD white
  else (colorTable (90 + (i - 8))).getD white

/-- The SGR parameter values the parser's if-chain recognizes. -/
def recognizedCode (n : Nat) : Prop :=
  n = 0 ∨ n = 1 ∨ n = 3 ∨ n = 4 ∨ n = 22 ∨ n = 23 ∨ n = 24 ∨
  (30 ≤ n ∧ n ≤ 37) ∨ (90 ≤ n ∧ n ≤ 97) ∨
  (40 ≤ n ∧ n ≤ 47) ∨ (100 ≤ n ∧ n ≤ 107) ∨
  n = 38 ∨ n = 48 ∨ n = 39 ∨ n = 49

instance (n : Nat) : Decidable (recognizedCode n) := by
  unfold recognizedCode
  infer_instance

/-! ## Registry map lemmas -/

theorem lookupS_insertS_self (m : Manager) (k : String) (v : SessionInfo) :
    lookupS (insertS m k v) k = some v := by
  induction m with
  | nil => simp [insertS, lookupS]
  | cons kv rest ih =>
    obtain ⟨k1, v1⟩ := kv
    by_cases h : k1 = k <;> simp [insertS, lookupS, h, ih]

theorem lookupS_insertS_other (m : Manager) (k q : String) (v : SessionInfo)
    (h : q ≠ k) : lookupS (insertS m k v) q = lookupS m q := by
  induction m with
  | nil => simp [insertS, lookupS, Ne.symm h]
  | cons kv rest ih =>
    obtain ⟨k1, v1⟩ := kv
    by_cases h1 : k1 = k
    · subst h1
      simp [insertS, lookupS, Ne.symm h]
    · by_cases h2 : k1 = q <;> simp [insertS, lookupS, h, h1, h2, ih]

theorem lookupS_eraseS_self (m : Manager) (k : String) :
    lookupS (eraseS m k) k = none := by
  induction m with
  | nil => simp [eraseS, lookupS]
  | cons kv rest ih =>
    obtain ⟨k1, v1⟩ := kv
    by_cases h : k1 = k
    · simpa [eraseS, List.filter, h] using ih
    · simpa [eraseS, List.filter, h, lookupS] using ih

/-! ## Claim C4 -/

/-- C4: a registry lookup never returns a session whose process has
exited; when the stored session's poll probe reports an exit status,
get_session evicts the entry before returning none. -/
theorem get_session_never_returns_dead (m : Manager) (path : String) :
    (∀ s, (get_session m path).1 = some s →
        ∃ p, s.process = some p ∧ p.pollResult = none) ∧
    (∀ s p r, lookupS m path = some s → s.process = some p →
        p.pollResult = some r →
        (get_session m path).1 = none ∧
        lookupS (get_session m path).2.1 path = none) := by
  constructor
  · intro s hs
    unfold get_session at hs
    cases hm : lookupS m path with
    | none => simp [hm] at hs
    | some s0 =>
      cases hp : s0.process with
      | none => simp [hm, hp] at hs
      | some p =>
        cases hr : p.pollResult with
        | none =>
          simp [hm, hp, hr] at hs
          exact ⟨p, by simp [← hs, hp], hr⟩
        | some r => simp [hm, hp, hr] at hs
  · intro s p r hm hp hr
    unfold get_session remove_session
    simp [hm, hp, hr, lookupS_eraseS_self]

/-- Witness for C4 at a one-entry registry whose process has exited. -/
theorem get_session_never_returns_dead_witness :
    (get_session deadManager "/w").1 = none ∧
    lookupS (get_session deadManager "/w").2.1 "/w" = none := by
  exact (get_session_never_returns_dead deadManager "/w").2 deadInfo ⟨7, some 0⟩ 0
    (by rfl) (by rfl) (by rfl)

/-! ## Claim C2 -/

theorem countLaunches_append (a b : List SEvent) :
    countLaunches (a ++ b) = countLaunches a + countLaunches b := by
  simp [countLaunches, List.filter_append]

theorem countLaunches_remove (m : Manager) (path : String) :
    countLaunches (remove_session m path).2 = 0 := by
  unfold remove_session
  cases hm : lookupS m path with
  | none => simp [countLaunches]
  | some s =>
    cases hp : s.process with
    | none =>
      cases hf : s.containerFrame <;>
        simp [hp, hf, countLaunches, List.filter]
    | some p =>
      cases hr : p.pollResult <;> cases hf : s.containerFrame <;>
        simp [hp, hr, hf, countLaunches, List.filter]

/-- C2: run_claude_here is get-or-create.  A live session for the path
makes the call a pure switch: the registry is untouched, no event
happens, nothing is launched.  Without a live session the call launches
exactly one process and registers the fresh session under the path. -/
theorem run_claude_here_get_or_create (m : Manager) (path : String)
    (fresh : Proc) (frame : Nat) (cmd : String) (now : ℚ) :
    (liveAt m path →
      run_claude_here m true (some path) fresh frame cmd now = (m, [], false)) ∧
    (¬ liveAt m path →
      (run_claude_here m true (some path) fresh frame cmd now).2.2 = true ∧
      lookupS (run_claude_here m true (some path) fresh frame cmd now).1 path =
        some { worktreePath := path, process := some fresh,
               containerFrame := some frame, status := "running",
               command := cmd, startTime := now } ∧
      countLaunches
        (run_claude_here m true (some path) fresh frame cmd now).2.1 = 1) := by
  constructor
  · rintro ⟨s, p, hm, hp, hr⟩
    unfold run_claude_here get_session
    simp [hm, hp, hr]
  · intro hnl
    unfold run_claude_here get_session register_session
    cases hm : lookupS m path with
    | none =>
      simp [hm, lookupS_insertS_self, countLaunches, List.filter]
    | some s =>
      cases hp : s.process with
      | none =>
        simp [hm, hp, lookupS_insertS_self, countLaunches, List.filter]
      | some p =>
        cases hr : p.pollResult with
        | none => exact absurd ⟨s, p, hm, hp, hr⟩ hnl
        | some r =>
          cases hrem : remove_session m path with
          | mk m2 evs =>
            have hzero : countLaunches evs = 0 := by
              have := countLaunches_remove m path
              rw [hrem] at this
              exact this
            simp only [countLaunches, List.filter] at hzero
            simp [hm, hp, hr, hrem, lookupS_insertS_self, countLaunches,
              List.filter_append, hzero, List.filter]

/-- Witness for C2: reuse of the live session, and a launch into the
empty registry. -/
theorem run_claude_here_get_or_create_witness :
    run_claude_here liveManager true (some "/w") ⟨9, none⟩ 2 "claude" 1
      = (liveManager, [], false) ∧
    (run_claude_here [] true (some "/w") ⟨9, none⟩ 2 "claude" 1).2.2 = true ∧
    countLaunches
      (run_claude_here [] true (some "/w") ⟨9, none⟩ 2 "claude" 1).2.1 = 1 := by
  refine ⟨(run_claude_here_get_or_create liveManager "/w" ⟨9, none⟩ 2 "claude" 1).1
    ⟨liveInfo, ⟨7, none⟩, by rfl, by rfl, by rfl⟩, ?_, ?_⟩
  · exact ((run_claude_here_get_or_create [] "/w" ⟨9, none⟩ 2 "claude" 1).2
      (by rintro ⟨s, p, hm, -, -⟩; simp [lookupS] at hm)).1
  · exact ((run_claude_here_get_or_create [] "/w" ⟨9, none⟩ 2 "claude" 1).2
      (by rintro ⟨s, p, hm, -, -⟩; simp [lookupS] at hm)).2.2

/-! ## Claim C9 -/

/-- C9: remove_session is idempotent, removing an absent path is a
no-op with no effect, and the cleanup chain a removal triggers closes
the PTY master descriptor at most once: a second cleanup finds the
descriptor field cleared and closes nothing. -/
theorem remove_session_idempotent (m : Manager) (path : String) (b : Bridge) :
    (lookupS m path = none → remove_session m path = (m, [])) ∧
    remove_session (remove_session m path).1 path
      = ((remove_session m path).1, []) ∧
    countCloses (cleanup b).2 ≤ 1 ∧
    countCloses (cleanup (cleanup b).1).2 = 0 := by
  refine ⟨?_, ?_, ?_, ?_⟩
  · intro h
    unfold remove_session
    simp [h]
  · cases hm : lookupS m path with
    | none =>
      have h1 : remove_session m path = (m, []) := by
        unfold remove_session
        simp [hm]
      rw [h1]
      unfold remove_session
      simp [hm]
    | some s =>
      have h1 : (remove_session m path).1 = eraseS m path := by
        unfold remove_session
        simp [hm]
      rw [h1]
      unfold remove_session
      simp [lookupS_eraseS_self]
  · unfold cleanup
    cases hfd : b.masterFd <;> cases hpid : b.processPid <;>
      simp [hfd, hpid, countCloses, List.filter]
  · unfold cleanup
    cases hfd : b.masterFd <;> cases hpid : b.processPid <;>
      simp [hfd, hpid, countCloses, List.filter]

/-- Witness for C9: absent-path removal on the empty registry and the
double cleanup of a bridge holding descriptor 5. -/
theorem remove_session_idempotent_witness :
    remove_session ([] : Manager) "/w" = ([], []) ∧
    countCloses (cleanup openBridge).2 ≤ 1 ∧
    countCloses (cleanup (cleanup openBridge).1).2 = 0 := by
  refine ⟨(remove_session_idempotent [] "/w" openBridge).1 (by rfl),
    (remove_session_idempotent [] "/w" openBridge).2.2.1,
    (remove_session_idempotent [] "/w" openBridge).2.2.2⟩

/-! ## Claim C10 -/

/-- C10: register_session on a path that already holds a session simply
overwrites the map entry: the new info is stored, no event occurs (the
old process is not terminated, no reader stop, no frame destruction,
no error), and every other path is untouched. -/
theorem register_session_overwrites (m : Manager) (path : String)
    (old : SessionInfo) (proc : Option Proc) (frame : Option Nat)
    (cmd : String) (now : ℚ) (h : lookupS m path = some old) :
    lookupS (register_session m path proc frame cmd now).1 path =
      some { worktreePath := path, process := proc, containerFrame := frame,
             status := "running", command := cmd, startTime := now } ∧
    (register_session m path proc frame cmd now).2 = [] ∧
    ∀ q, q ≠ path →
      lookupS (register_session m path proc frame cmd now).1 q = lookupS m q := by
  refine ⟨?_, rfl, ?_⟩
  · simp [register_session, lookupS_insertS_self]
  · intro q hq
    simp [register_session, lookupS_insertS_other m path q _ hq]

/-- Witness for C10: overwriting the live one-entry registry orphans the
old running process without any event. -/
theorem register_session_overwrites_witness :
    lookupS (register_session liveManager "/w" (some ⟨9, none⟩) (some 2)
      "codex" 5).1 "/w" =
      some { worktreePath := "/w", process := some ⟨9, none⟩,
             containerFrame := some 2, status := "running",
             command := "codex", startTime := 5 } ∧
    (register_session liveManager "/w" (some ⟨9, none⟩) (some 2) "codex" 5).2
      = [] := by
  refine ⟨(register_session_overwrites liveManager "/w" liveInfo
    (some ⟨9, none⟩) (some 2) "codex" 5 (by rfl)).1,
    (register_session_overwrites liveManager "/w" liveInfo
    (some ⟨9, none⟩) (some 2) "codex" 5 (by rfl)).2.1⟩

/-! ## Inactivity-detector lemmas shared by C5 and C6 -/

/-- Inversion of a fired check: firing requires armed tracking, the
first post-submit output already seen, a not-yet-fired flag, recorded
activity, a last input at least the threshold old (when recorded), and
a last output at least the threshold old; the result disables tracking
and sets the fired flag. -/
theorem check_fire_inversion (b : Bridge) (now : ℚ)
    (hf : (check_inactivity b now).2 = true) :
    b.trackingEnabled = true ∧ b.awaitingOutput = false ∧
    b.inactivityTriggered = false ∧ b.activitySeen = true ∧
    (∀ t0, b.lastInputTime = some t0 → now - t0 ≥ INACTIVITY_TIMER) ∧
    (∃ t1, b.lastOutputTime = some t1 ∧ now - t1 ≥ INACTIVITY_TIMER) ∧
    check_inactivity b now
      = ({ b with inactivityTriggered := true, trackingEnabled := false },
         true) := by
  by_cases h1 : b.trackingEnabled = false
  · simp [check_inactivity, h1] at hf
  · by_cases h2 : b.awaitingOutput
    · simp [check_inactivity, h1, h2] at hf
    · by_cases h3 : b.inactivityTriggered = false ∧ b.activitySeen
      · cases hin : b.lastInputTime with
        | none =>
          cases hout : b.lastOutputTime with
          | none => simp [check_inactivity, h1, h2, h3, hin, hout] at hf
          | some t1 =>
            by_cases h4 : now - t1 ≥ INACTIVITY_TIMER
            · refine ⟨by simpa using h1, by simpa using h2, h3.1,
                by simpa using h3.2, by simp [hin], ⟨t1, rfl, h4⟩, ?_⟩
              simp [check_inactivity, h1, h2, h3, hin, hout, h4]
            · simp [check_inactivity, h1, h2, h3, hin, hout, h4] at hf
        | some t0 =>
          by_cases h5 : now - t0 < INACTIVITY_TIMER
          · simp [check_inactivity, h1, h2, h3, hin, h5] at hf
          · cases hout : b.lastOutputTime with
            | none => simp [check_inactivity, h1, h2, h3, hin, h5, hout] at hf
            | some t1 =>
              by_cases h4 : now - t1 ≥ INACTIVITY_TIMER
              · refine ⟨by simpa using h1, by simpa using h2, h3.1,
                  by simpa using h3.2, ?_, ⟨t1, rfl, h4⟩, ?_⟩
                · intro t0' ht0'
                  injection ht0' with ht0'
                  subst ht0'
                  linarith [not_lt.mp h5]
                · simp [check_inactivity, h1, h2, h3, hin, h5, hout, h4]
              · simp [check_inactivity, h1, h2, h3, hin, h5, hout, h4] at hf
      · simp [check_inactivity, h1, h2, h3] at hf

/-- While tracking is disabled, no event other than an Enter-bearing
keyboard write re-enables it, and no check fires. -/
theorem no_fire_while_disarmed (b : Bridge) (evs : List TEvent)
    (hb : b.trackingEnabled = false)
    (he : ∀ e ∈ evs, isEnterInput e = false) :
    (runEvents b evs).2 = 0 ∧ (runEvents b evs).1.trackingEnabled = false := by
  induction evs generalizing b with
  | nil => simpa [runEvents] using hb
  | cons e es ih =>
    have he1 : isEnterInput e = false := he e (by simp)
    have hes : ∀ x ∈ es, isEnterInput x = false := fun x hx => he x (by simp [hx])
    cases e with
    | output now =>
      have htr : (read_pty_output b now).trackingEnabled = false := by
        simp [read_pty_output, hb]
      have hrec := ih (read_pty_output b now) htr hes
      simp [runEvents, stepEvent, hrec.1, hrec.2]
    | input data now =>
      have hcr : '\r' ∉ data := by simpa [isEnterInput] using he1
      have htr : (write_to_pty b data now).trackingEnabled = false := by
        simp [write_to_pty, hcr, hb]
      have hrec := ih (write_to_pty b data now) htr hes
      simp [runEvents, stepEvent, hrec.1, hrec.2]
    | tick now =>
      have hchk : check_inactivity b now = (b, false) := by
        unfold check_inactivity
        simp [hb]
      have hrec := ih b hb hes
      simp [runEvents, stepEvent, hchk, hrec.1, hrec.2]

/-! ## Claim C5 -/

/-- C5: at most one idle notification per submission.  A fired check
disables tracking and sets the fired flag; with tracking disabled, any
sequence of outputs, Enter-free keyboard writes and timer ticks fires
nothing and leaves tracking disabled; and an Enter-bearing write is the
re-arm that clears the fired flag and the recorded last-output time. -/
theorem inactivity_fires_once_per_submit (b : Bridge) (now : ℚ)
    (evs : List TEvent) (data : List Char) (t : ℚ) :
    ((check_inactivity b now).2 = true →
      (check_inactivity b now).1.trackingEnabled = false ∧
      (check_inactivity b now).1.inactivityTriggered = true) ∧
    (b.trackingEnabled = false → (∀ e ∈ evs, isEnterInput e = false) →
      (runEvents b evs).2 = 0 ∧
      (runEvents b evs).1.trackingEnabled = false) ∧
    (data.contains '\r' = true →
      (write_to_pty b data t).inactivityTriggered = false ∧
      (write_to_pty b data t).lastOutputTime = none ∧
      (write_to_pty b data t).trackingEnabled = true ∧
      (write_to_pty b data t).awaitingOutput = true) := by
  refine ⟨?_, fun hb he => no_fire_while_disarmed b evs hb he, ?_⟩
  · intro hf
    have h := (check_fire_inversion b now hf).2.2.2.2.2.2
    rw [h]
    exact ⟨rfl, rfl⟩
  · intro hcr
    have hmem : '\r' ∈ data := by simpa using hcr
    simp [write_to_pty, hmem]

/-- Witness for C5: a concrete armed bridge fires at t = 10; the fired
bridge absorbs later output and ticks without firing again; an Enter
write re-arms and clears the output history. -/
theorem inactivity_fires_once_per_submit_witness :
    ((check_inactivity armedBridge 10).1.trackingEnabled = false ∧
      (check_inactivity armedBridge 10).1.inactivityTriggered = true) ∧
    ((runEvents firedBridge
        [TEvent.output 11, TEvent.tick 20, TEvent.input ['l', 's'] 21,
         TEvent.tick 100]).2 = 0 ∧
      (runEvents firedBridge
        [TEvent.output 11, TEvent.tick 20, TEvent.input ['l', 's'] 21,
         TEvent.tick 100]).1.trackingEnabled = false) ∧
    ((write_to_pty firedBridge ['g', 'o', '\r'] 30).inactivityTriggered
        = false ∧
      (write_to_pty firedBridge ['g', 'o', '\r'] 30).lastOutputTime = none ∧
      (write_to_pty firedBridge ['g', 'o', '\r'] 30).trackingEnabled = true ∧
      (write_to_pty firedBridge ['g', 'o', '\r'] 30).awaitingOutput = true) := by
  have h := inactivity_fires_once_per_submit armedBridge 10
    [TEvent.output 11, TEvent.tick 20, TEvent.input ['l', 's'] 21,
     TEvent.tick 100] ['g', 'o', '\r'] 30
  have h2 := inactivity_fires_once_per_submit firedBridge 10
    [TEvent.output 11, TEvent.tick 20, TEvent.input ['l', 's'] 21,
     TEvent.tick 100] ['g', 'o', '\r'] 30
  have hfire : (check_inactivity armedBridge 10).2 = true := by
    unfold check_inactivity armedBridge initBridge INACTIVITY_TIMER
    norm_num
  exact ⟨h.1 hfire, h2.2.1 (by rfl) (by decide), h2.2.2 (by decide)⟩

/-! ## Claim C6 -/

/-- C6: the periodic check defers while the last keyboard input is
younger than the threshold, however old the last output is; it fires
only when the first post-submit output has been seen and both the last
input (when recorded) and the last output are at least the threshold
old. -/
theorem check_inactivity_interaction_guard (b : Bridge) (now ti : ℚ) :
    (b.lastInputTime = some ti → now - ti < INACTIVITY_TIMER →
      (check_inactivity b now).2 = false) ∧
    ((check_inactivity b now).2 = true →
      b.trackingEnabled = true ∧ b.awaitingOutput = false ∧
      b.activitySeen = true ∧
      (∀ t0, b.lastInputTime = some t0 → now - t0 ≥ INACTIVITY_TIMER) ∧
      ∃ t1, b.lastOutputTime = some t1 ∧ now - t1 ≥ INACTIVITY_TIMER) := by
  constructor
  · intro hin hlt
    by_cases h1 : b.trackingEnabled = false
    · simp [check_inactivity, h1]
    · by_cases h2 : b.awaitingOutput
      · simp [check_inactivity, h1, h2]
      · by_cases h3 : b.inactivityTriggered = false ∧ b.activitySeen
        · simp [check_inactivity, h1, h2, h3, hin, hlt]
        · simp [check_inactivity, h1, h2, h3]
  · intro hf
    obtain ⟨ha, hb, -, hc, hd, he, -⟩ := check_fire_inversion b now hf
    exact ⟨ha, hb, hc, hd, he⟩

/-- Witness for C6: at t = 10 the last input is one second old, so the
check does not fire even though the last output is nine seconds old;
the same bridge does fire at t = 12 once the input is three seconds
old, and the inversion recovers both age bounds. -/
theorem check_inactivity_interaction_guard_witness :
    (check_inactivity typingBridge 10).2 = false ∧
    ((12 : ℚ) - 9 ≥ INACTIVITY_TIMER ∧
      ∃ t1, typingBridge.lastOutputTime = some t1 ∧
        (12 : ℚ) - t1 ≥ INACTIVITY_TIMER) := by
  constructor
  · exact (check_inactivity_interaction_guard typingBridge 10 9).1 rfl
      (by norm_num [INACTIVITY_TIMER])
  · have hfire : (check_inactivity typingBridge 12).2 = true := by
      unfold check_inactivity typingBridge initBridge INACTIVITY_TIMER
      norm_num
    have h := (check_inactivity_interaction_guard typingBridge 12 9).2 hfire
    exact ⟨h.2.2.2.1 9 rfl, h.2.2.2.2⟩

/-! ## Claim C7 -/

/-- Counterexample to C7 as stated: palette index 8 should be the
bright-black entry of the 16-color palette, but the source computes
30 + (8 % 8) = 30 and yields standard black. -/
theorem get_256_color_low_index_cex :
    get_256_color 8 ≠ spec_palette16 8 := by decide

/-- C7 amended: indices 0-7 resolve to the standard palette entries;
indices 8-15 collapse onto the standard entry for index - 8 (the bright
palette rows are never used); 16-231 form the 6x6x6 cube with component
values coordinate * 51, so ESC[38;5;196m resolves the foreground to the
cube color (255, 0, 0); 232-255 form the 24-step grayscale ramp. -/
theorem get_256_color_amended :
    (∀ i, i < 8 → get_256_color i = spec_palette16 i) ∧
    (∀ i, 8 ≤ i → i < 16 → get_256_color i = get_256_color (i - 8)) ∧
    (∀ a b c, a < 6 → b < 6 → c < 6 →
      get_256_color (16 + 36 * a + 6 * b + c) = ⟨a * 51, b * 51, c * 51⟩) ∧
    (∀ k, k < 24 →
      get_256_color (232 + k) = ⟨k * 10 + 8, k * 10 + 8, k * 10 + 8⟩) ∧
    parse_escape_sequence resetState "38;5;196".toList
      = { resetState with fgColor := ⟨255, 0, 0⟩ } := by
  refine ⟨?_, ?_, ?_, ?_, by decide⟩
  · intro i h
    have h16 : i < 16 := by omega
    have hmod : i % 8 = i := Nat.mod_eq_of_lt h
    simp [get_256_color, spec_palette16, h, h16, hmod]
  · intro i h8 h16
    have hmod : i % 8 = i - 8 := by omega
    have hlt : i - 8 < 8 := by omega
    have hlt16 : i - 8 < 16 := by omega
    have hmod2 : (i - 8) % 8 = i - 8 := Nat.mod_eq_of_lt hlt
    simp [get_256_color, h16, hlt16, hmod, hmod2]
  · intro a b c ha hb hc
    have h1 : ¬ 16 + 36 * a + 6 * b + c < 16 := by omega
    have h2 : 16 + 36 * a + 6 * b + c < 232 := by omega
    have hd : (16 + 36 * a + 6 * b + c - 16) / 36 = a := by omega
    have hm : (16 + 36 * a + 6 * b + c - 16) % 36 / 6 = b := by omega
    have hm2 : (16 + 36 * a + 6 * b + c - 16) % 6 = c := by omega
    simp only [get_256_color]
    rw [if_neg h1, if_pos h2, hd, hm, hm2]
  · intro k hk
    have h1 : ¬ 232 + k < 16 := by omega
    have h2 : ¬ 232 + k < 232 := by omega
    have h3 : 232 + k - 232 = k := by omega
    simp only [get_256_color]
    rw [if_neg h1, if_neg h2, h3]

/-- Witness for C7 amended: index 196 is cube coordinate (5, 0, 0) and
resolves to (255, 0, 0); index 8 resolves like index 0; index 250 is
grayscale step 18. -/
theorem get_256_color_amended_witness :
    get_256_color 196 = ⟨5 * 51, 0 * 51, 0 * 51⟩ ∧
    get_256_color 8 = get_256_color 0 ∧
    get_256_color 250 = ⟨188, 188, 188⟩ := by
  refine ⟨?_, ?_, ?_⟩
  · exact get_256_color_amended.2.2.1 5 0 0 (by omega) (by omega) (by omega)
  · exact get_256_color_amended.2.1 8 (by omega) (by omega)
  · have h := get_256_color_amended.2.2.2.1 18 (by omega)
    simpa using h

/-! ## Claim C8 -/

/-- C8: a parameter that cannot be parsed as an integer, or an unknown
numeric parameter, is skipped individually: the fold is total (never an
error value), the skipped parameter changes no state, and processing
continues with the remaining parameters of the same sequence. -/
theorem malformed_param_skipped (st : ParserState) (rest : List (List Char)) :
    (∀ bad, pyNum bad = none →
      applyCodes st (bad :: rest) = applyCodes st rest) ∧
    (∀ part n, pyNum part = some n → ¬ recognizedCode n →
      applyCodes st (part :: rest) = applyCodes st rest) := by
  constructor
  · intro bad h
    have hstep : sgrStep st bad rest = (st, rest) := by
      simp only [sgrStep, h]
    simp only [applyCodes, applyCodesAux, hstep]
  · intro part n hn hnr
    have hnum : sgrStepNum st n rest = (st, rest) := by
      simp only [recognizedCode, not_or] at hnr
      obtain ⟨g0, g1, g3, g4, g22, g23, g24, gA, gB, gC, gD,
        g38, g48, g39, g49⟩ := hnr
      unfold sgrStepNum
      rw [if_neg g0, if_neg g1, if_neg g3, if_neg g4, if_neg g22,
        if_neg g23, if_neg g24, if_neg (not_or.mpr ⟨gA, gB⟩),
        if_neg (not_or.mpr ⟨gC, gD⟩), if_neg g38, if_neg g48,
        if_neg g39, if_neg g49]
    have hstep : sgrStep st part rest = (st, rest) := by
      simp only [sgrStep, hn, hnum]
    simp only [applyCodes, applyCodesAux, hstep]

/-- Witness for C8 on ESC[x;31m and ESC[77;31m style parameter lists:
the malformed parameter x and the unknown parameter 77 are each skipped
and the red foreground parameter 31 still applies. -/
theorem malformed_param_skipped_witness :
    applyCodes resetState [['x'], ['3', '1']]
      = applyCodes resetState [['3', '1']] ∧
    applyCodes resetState [['7', '7'], ['3', '1']]
      = applyCodes resetState [['3', '1']] ∧
    (applyCodes resetState [['x'], ['3', '1']]).fgColor = ⟨205, 49, 49⟩ := by
  refine ⟨(malformed_param_skipped resetState [['3', '1']]).1 ['x'] (by decide),
    (malformed_param_skipped resetState [['3', '1']]).2 ['7', '7'] 77
      (by decide) (by decide), ?_⟩
  rw [(malformed_param_skipped resetState [['3', '1']]).1 ['x'] (by decide)]
  decide

/-! ## Character-class facts -/

theorem isParamChar_ne_esc {c : Char} (h : isParamChar c = true) : c ≠ esc := by
  rintro rfl
  simp [isParamChar, esc, Char.isDigit] at h

theorem isParamChar_ne_cr {c : Char} (h : isParamChar c = true) : c ≠ '\r' := by
  rintro rfl
  simp [isParamChar, Char.isDigit] at h

theorem params_no_esc {w : List Char} (hw : ∀ c ∈ w, isParamChar c = true) :
    esc ∉ w := fun hm => isParamChar_ne_esc (hw esc hm) rfl

theorem params_no_cr {w : List Char} (hw : ∀ c ∈ w, isParamChar c = true) :
    '\r' ∉ w := fun hm => isParamChar_ne_cr (hw '\r' hm) rfl

/-! ## Substring-search lemmas -/

theorem startsWithL_esc_false {u t : List Char} (hE : esc ∉ t) :
    startsWithL (esc :: u) t = false := by
  cases t with
  | nil => rfl
  | cons c cs =>
    have hc : ¬ esc = c := fun h => hE (h ▸ List.mem_cons_self c cs)
    simp [startsWithL, hc]

theorem hasSubstr_esc_false {u t : List Char} (hE : esc ∉ t) :
    hasSubstr (esc :: u) t = false := by
  induction t with
  | nil => rfl
  | cons c cs ih =>
    have h1 : esc ∉ cs := fun h => hE (List.mem_cons_of_mem c h)
    simp [hasSubstr, startsWithL_esc_false hE, ih h1]

theorem hasSubstr_append_esc {u : List Char} (a t : List Char)
    (hE : esc ∉ a) :
    hasSubstr (esc :: u) (a ++ t) = hasSubstr (esc :: u) t := by
  induction a with
  | nil => rfl
  | cons c a2 ih =>
    have hc : ¬ esc = c := fun h => hE (h ▸ List.mem_cons_self c a2)
    have h1 : esc ∉ a2 := fun h => hE (List.mem_cons_of_mem c h)
    simp [hasSubstr, startsWithL, hc, ih h1]

theorem hasSubstr_single (x : Char) (t : List Char) :
    hasSubstr [x] t = true ↔ x ∈ t := by
  induction t with
  | nil => simp [hasSubstr, startsWithL]
  | cons c cs ih =>
    by_cases h : x = c <;> simp [hasSubstr, startsWithL, h, ih]

theorem hasSubstr_single_false {x : Char} {t : List Char} (h : x ∉ t) :
    hasSubstr [x] t = false := by
  rcases hh : hasSubstr [x] t with - | -
  · rfl
  · exact absurd ((hasSubstr_single x t).mp hh) h

theorem startsWithL_single_false {x : Char} {l : List Char} (h : x ∉ l) :
    startsWithL [x] l = false := by
  cases l with
  | nil => rfl
  | cons c cs =>
    have hc : ¬ x = c := fun hh => h (hh ▸ List.mem_cons_self c cs)
    simp [startsWithL, hc]

theorem hasSubstr_crlf_false {t : List Char} (h : '\n' ∉ t) :
    hasSubstr ['\r', '\n'] t = false := by
  induction t with
  | nil => rfl
  | cons c cs ih =>
    have h1 : '\n' ∉ cs := fun hm => h (List.mem_cons_of_mem c hm)
    by_cases hc : c = '\r'
    · simp [hasSubstr, startsWithL, hc, startsWithL_single_false h1, ih h1]
    · simp [hasSubstr, startsWithL, Ne.symm hc, ih h1]

theorem hasSubstr_crlf_false_no_cr {t : List Char} (h : '\r' ∉ t) :
    hasSubstr ['\r', '\n'] t = false := by
  induction t with
  | nil => rfl
  | cons c cs ih =>
    have hc : ¬ '\r' = c := fun hh => h (hh ▸ List.mem_cons_self c cs)
    have h1 : '\r' ∉ cs := fun hm => h (List.mem_cons_of_mem c hm)
    simp [hasSubstr, startsWithL, hc, ih h1]

/-! ## Scrub-scan lemmas -/

theorem scrubAux_nilfuel (m : List Char → Option (List Char)) (t : List Char) :
    scrubAux m [] t = t := by
  cases t <;> rfl

theorem scrubAux_cons_none (m : List Char → Option (List Char))
    (f : Char) (fs : List Char) (c : Char) (cs : List Char)
    (h : m (c :: cs) = none) :
    scrubAux m (f :: fs) (c :: cs) = c :: scrubAux m fs cs := by
  simp [scrubAux, h]

theorem scrubAux_noEsc (m : List Char → Option (List Char))
    (hm : ∀ c cs, c ≠ esc → m (c :: cs) = none)
    (f t : List Char) (hE : esc ∉ t) : scrubAux m f t = t := by
  induction t generalizing f with
  | nil => cases f <;> rfl
  | cons c cs ih =>
    cases f with
    | nil => rfl
    | cons f0 fs =>
      have hc : c ≠ esc := fun hh => hE (hh ▸ List.mem_cons_self c cs)
      have h1 : esc ∉ cs := fun hx => hE (List.mem_cons_of_mem c hx)
      rw [scrubAux_cons_none m f0 fs c cs (hm c cs hc), ih fs h1]

theorem scrubAux_append (m : List Char → Option (List Char))
    (hm : ∀ c cs, c ≠ esc → m (c :: cs) = none)
    (a t f : List Char) (hE : esc ∉ a) :
    scrubAux m f (a ++ t) = a ++ scrubAux m (f.drop a.length) t := by
  induction a generalizing f with
  | nil => simp
  | cons c a2 ih =>
    have hc : c ≠ esc := fun hh => hE (hh ▸ List.mem_cons_self c a2)
    have h1 : esc ∉ a2 := fun hx => hE (List.mem_cons_of_mem c hx)
    cases f with
    | nil =>
      rw [scrubAux_nilfuel]
      simp [scrubAux_nilfuel]
    | cons f0 fs =>
      rw [List.cons_append,
        scrubAux_cons_none m f0 fs c (a2 ++ t) (hm c (a2 ++ t) hc),
        ih fs h1]
      simp

theorem scrubAux_esc_block (m : List Char → Option (List Char))
    (hm : ∀ c cs, c ≠ esc → m (c :: cs) = none)
    (rest f : List Char) (h : m (esc :: rest) = none) (hE : esc ∉ rest) :
    scrubAux m f (esc :: rest) = esc :: rest := by
  cases f with
  | nil => rfl
  | cons f0 fs =>
    rw [scrubAux_cons_none m f0 fs esc rest h, scrubAux_noEsc m hm fs rest hE]

theorem scrub_noEsc (m : List Char → Option (List Char))
    (hm : ∀ c cs, c ≠ esc → m (c :: cs) = none)
    (t : List Char) (hE : esc ∉ t) : scrub m t = t :=
  scrubAux_noEsc m hm t t hE

theorem scrub_split (m : List Char → Option (List Char))
    (hm : ∀ c cs, c ≠ esc → m (c :: cs) = none)
    (a rest : List Char) (hE : esc ∉ a) (h : m (esc :: rest) = none)
    (hR : esc ∉ rest) :
    scrub m (a ++ esc :: rest) = a ++ esc :: rest := by
  rw [scrub, scrubAux_append m hm a (esc :: rest) _ hE,
    scrubAux_esc_block m hm rest _ h hR]

/-! ## CRLF and carriage-return-collapse lemmas -/

theorem normCRLF_id_no_cr {t : List Char} (h : '\r' ∉ t) : normCRLF t = t := by
  induction t with
  | nil => rfl
  | cons c cs ih =>
    have hc : ¬ c = '\r' := fun hh => h (hh ▸ List.mem_cons_self c cs)
    have h1 : '\r' ∉ cs := fun hx => h (List.mem_cons_of_mem c hx)
    cases cs with
    | nil => rfl
    | cons d rest => simp [normCRLF, hc, ih h1]

theorem normCRLF_id_no_lf {t : List Char} (h : '\n' ∉ t) : normCRLF t = t := by
  induction t with
  | nil => rfl
  | cons c cs ih =>
    have h1 : '\n' ∉ cs := fun hx => h (List.mem_cons_of_mem c hx)
    cases cs with
    | nil => rfl
    | cons d rest =>
      have hd : ¬ d = '\n' := fun hh =>
        h (hh ▸ List.mem_cons_of_mem c (List.mem_cons_self d rest))
      simp [normCRLF, hd, ih h1]

theorem splitOnChar_no_sep {sep : Char} {t : List Char} (h : sep ∉ t) :
    splitOnChar sep t = [t] := by
  induction t with
  | nil => rfl
  | cons c cs ih =>
    have hc : ¬ c = sep := fun hh => h (hh ▸ List.mem_cons_self c cs)
    have h1 : sep ∉ cs := fun hx => h (List.mem_cons_of_mem c hx)
    simp [splitOnChar, ih h1, hc]

theorem splitOnChar_ne_nil (sep : Char) (t : List Char) :
    splitOnChar sep t ≠ [] := by
  cases t with
  | nil => simp [splitOnChar]
  | cons c cs =>
    cases hs : splitOnChar sep cs with
    | nil => simp [splitOnChar, hs]
    | cons h l => by_cases hc : c == sep <;> simp [splitOnChar, hs, hc]

theorem splitOnChar_two_of_mem {sep : Char} {t : List Char} (h : sep ∈ t) :
    ∃ x y ys, splitOnChar sep t = x :: y :: ys := by
  induction t with
  | nil => cases h
  | cons c cs ih =>
    by_cases hc : c = sep
    · subst hc
      cases hsp : splitOnChar c cs with
      | nil => exact absurd hsp (splitOnChar_ne_nil c cs)
      | cons y ys => exact ⟨[], y, ys, by simp [splitOnChar, hsp]⟩
    · have hmem : sep ∈ cs := by
        rcases List.mem_cons.mp h with h2 | h2
        · exact absurd h2.symm hc
        · exact h2
      obtain ⟨x, y, ys, hsp⟩ := ih hmem
      exact ⟨c :: x, y, ys, by simp [splitOnChar, hsp, hc]⟩

theorem lastSeg_cons_cons (a b : List Char) (l : List (List Char)) :
    lastSeg (a :: b :: l) = lastSeg (b :: l) := rfl

theorem crSegment_cons {c : Char} {rest : List Char} (h : '\r' ∈ rest) :
    crSegment (c :: rest) = crSegment rest := by
  obtain ⟨x, y, ys, hsp⟩ := splitOnChar_two_of_mem h
  by_cases hc : c = '\r' <;>
    simp [crSegment, splitOnChar, hsp, hc, lastSeg_cons_cons]

theorem crSegment_no_cr {p : List Char} (h : '\r' ∉ p) : crSegment p = p := by
  simp [crSegment, splitOnChar_no_sep h, lastSeg]

theorem crSegment_after_last {a b : List Char} (hb : '\r' ∉ b) :
    crSegment (a ++ '\r' :: b) = b := by
  induction a with
  | nil =>
    simp [crSegment, splitOnChar, splitOnChar_no_sep hb, lastSeg]
  | cons c a2 ih =>
    have hmem : '\r' ∈ a2 ++ '\r' :: b := by simp
    rw [List.cons_append, crSegment_cons hmem, ih]

theorem intercalate_single (x : List Char) :
    List.intercalate ['\n'] [x] = x := by
  simp [List.intercalate]

theorem crCollapse_single_line {t : List Char} (h : '\n' ∉ t) :
    crCollapse t = crSegment t := by
  rw [crCollapse, splitOnChar_no_sep h]
  simp [intercalate_single]

/-! ## Matcher head lemmas: every control-sequence matcher requires an
escape character at the scan position -/

theorem matchClearJ_head {c : Char} (cs : List Char) (h : c ≠ esc) :
    matchClearJ (c :: cs) = none := by
  rcases cs with - | ⟨b, - | ⟨d, - | ⟨e, r⟩⟩⟩ <;> simp [matchClearJ, h]

theorem matchHome_head {c : Char} (cs : List Char) (h : c ≠ esc) :
    matchHome (c :: cs) = none := by
  rcases cs with - | ⟨b, - | ⟨d, r⟩⟩ <;> simp [matchHome, h]

theorem matchEscK_head {c : Char} (cs : List Char) (h : c ≠ esc) :
    matchEscK (c :: cs) = none := by
  rcases cs with - | ⟨b, - | ⟨d, r⟩⟩ <;> simp [matchEscK, h]

theorem matchCursorVis_head {c : Char} (cs : List Char) (h : c ≠ esc) :
    matchCursorVis (c :: cs) = none := by
  rcases cs with - | ⟨b, - | ⟨d, r⟩⟩ <;> simp [matchCursorVis, h]

theorem matchCursorPos_head {c : Char} (cs : List Char) (h : c ≠ esc) :
    matchCursorPos (c :: cs) = none := by
  rcases cs with - | ⟨b, r⟩ <;> simp [matchCursorPos, h]

theorem matchColOps_head {c : Char} (cs : List Char) (h : c ≠ esc) :
    matchColOps (c :: cs) = none := by
  rcases cs with - | ⟨b, r⟩ <;> simp [matchColOps, h]

theorem matchSGR_head {c : Char} (cs : List Char) (h : c ≠ esc) :
    matchSGR (c :: cs) = none := by
  rcases cs with - | ⟨b, r⟩ <;> simp [matchSGR, h]

/-! ## pTail lemmas: matcher failure on SGR-shaped tails -/

theorem pTail_params_append {w r : List Char}
    (hw : ∀ c ∈ w, isParamChar c = true)
    (hr : r = [] ∨ ∃ s, r = 'm' :: s) : pTail (w ++ r) = true := by
  induction w with
  | nil => rcases hr with rfl | ⟨s, rfl⟩ <;> simp [pTail]
  | cons c w2 ih =>
    have hc := hw c (List.mem_cons_self c w2)
    have hw2 : ∀ x ∈ w2, isParamChar x = true := fun x hx =>
      hw x (List.mem_cons_of_mem c hx)
    have hcm : ¬ c = 'm' := by
      rintro rfl
      simp [isParamChar] at hc
    simp [pTail, hcm, hc, ih hw2]

theorem pTail_head {c : Char} {cs : List Char} (h : pTail (c :: cs) = true) :
    c = 'm' ∨ (isParamChar c = true ∧ pTail cs = true) := by
  by_cases hc : c = 'm'
  · exact Or.inl hc
  · right
    simpa [pTail, hc] using h

theorem pTail_head_ne {c : Char} {cs : List Char} (h : pTail (c :: cs) = true)
    {x : Char} (hx1 : x ≠ 'm') (hx2 : isParamChar x = false) : c ≠ x := by
  rintro rfl
  rcases pTail_head h with h1 | ⟨h2, -⟩
  · exact hx1 h1
  · rw [hx2] at h2
    cases h2

theorem matchHome_ptail {rest : List Char} (h : pTail rest = true) :
    matchHome (esc :: '[' :: rest) = none := by
  cases rest with
  | nil => rfl
  | cons c cs =>
    have hc : c ≠ 'H' := pTail_head_ne h (by decide) (by decide)
    simp [matchHome, hc]

theorem matchEscK_ptail {rest : List Char} (h : pTail rest = true) :
    matchEscK (esc :: '[' :: rest) = none := by
  cases rest with
  | nil => rfl
  | cons c cs =>
    have hc : c ≠ 'K' := pTail_head_ne h (by decide) (by decide)
    simp [matchEscK, hc]

theorem matchCursorVis_ptail {rest : List Char} (h : pTail rest = true) :
    matchCursorVis (esc :: '[' :: rest) = none := by
  cases rest with
  | nil => rfl
  | cons c cs =>
    have hc : c ≠ '?' := pTail_head_ne h (by decide) (by decide)
    simp [matchCursorVis, hc]

theorem matchClearJ_ptail {rest : List Char} (h : pTail rest = true) :
    matchClearJ (esc :: '[' :: rest) = none := by
  cases rest with
  | nil => rfl
  | cons c cs =>
    rcases pTail_head h with hm | ⟨hp, hcs⟩
    · subst hm
      cases cs <;> simp [matchClearJ]
    · cases cs with
      | nil => rfl
      | cons d ds =>
        have hd : d ≠ 'J' := pTail_head_ne hcs (by decide) (by decide)
        simp [matchClearJ, hd]

theorem startsWithL_ptail_2J {x : Char} (hx : x = '2' ∨ x = '3')
    {rest : List Char} (h : pTail rest = true) :
    startsWithL [x, 'J'] rest = false := by
  cases rest with
  | nil => rfl
  | cons c cs =>
    rcases pTail_head h with hm | ⟨hp, hcs⟩
    · subst hm
      rcases hx with rfl | rfl <;> simp [startsWithL]
    · cases cs with
      | nil => simp [startsWithL]
      | cons d ds =>
        have hd : d ≠ 'J' := pTail_head_ne hcs (by decide) (by decide)
        simp [startsWithL, Ne.symm hd]

theorem startsWithL_ptail_H {rest : List Char} (h : pTail rest = true) :
    startsWithL ['H'] rest = false := by
  cases rest with
  | nil => rfl
  | cons c cs =>
    have hc : c ≠ 'H' := pTail_head_ne h (by decide) (by decide)
    simp [startsWithL, Ne.symm hc]

theorem pTail_dropWhile_digits {rest : List Char} (h : pTail rest = true) :
    pTail (rest.dropWhile Char.isDigit) = true ∧
    (rest.dropWhile Char.isDigit = [] ∨
     ∃ cs, rest.dropWhile Char.isDigit = ';' :: cs ∨
           rest.dropWhile Char.isDigit = 'm' :: cs) := by
  induction rest with
  | nil => exact ⟨rfl, Or.inl rfl⟩
  | cons c cs ih =>
    rcases pTail_head h with hm | ⟨hp, hrest⟩
    · subst hm
      rw [List.dropWhile_cons]
      simp only [show ('m').isDigit = false from by decide]
      exact ⟨h, Or.inr ⟨cs, Or.inr (by simp)⟩⟩
    · by_cases hd : c.isDigit
      · rw [List.dropWhile_cons]
        simp only [hd, if_true]
        exact ih hrest
      · have hsemi : c = ';' := by
          have := hp
          simp [isParamChar, hd] at this
          exact this
        rw [List.dropWhile_cons]
        simp only [hd, if_false, Bool.false_eq_true]
        exact ⟨h, Or.inr ⟨cs, Or.inl (by rw [hsemi])⟩⟩

theorem matchColOps_ptail {rest : List Char} (h : pTail rest = true) :
    matchColOps (esc :: '[' :: rest) = none := by
  obtain ⟨h1, h2⟩ := pTail_dropWhile_digits h
  rcases h2 with hnil | ⟨cs, hsem | hm⟩
  · simp [matchColOps, hnil]
  · simp [matchColOps, hsem]
  · simp [matchColOps, hm]

theorem matchCursorPos_ptail {rest : List Char} (h : pTail rest = true) :
    matchCursorPos (esc :: '[' :: rest) = none := by
  obtain ⟨h1, h2⟩ := pTail_dropWhile_digits h
  cases htw : rest.takeWhile Char.isDigit with
  | nil => simp [matchCursorPos, htw]
  | cons t ts =>
    rcases h2 with hnil | ⟨cs, hsem | hm⟩
    · simp [matchCursorPos, htw, hnil]
    · have h1s : pTail (';' :: cs) = true := hsem ▸ h1
      have hcs : pTail cs = true := by
        rcases pTail_head h1s with bad | ⟨-, hx⟩
        · exact absurd bad (by decide)
        · exact hx
      obtain ⟨h3, h4⟩ := pTail_dropWhile_digits hcs
      cases htw2 : cs.takeWhile Char.isDigit with
      | nil => simp [matchCursorPos, htw, hsem, htw2]
      | cons u us =>
        rcases h4 with hnil2 | ⟨ds, hsem2 | hm2⟩
        · simp [matchCursorPos, htw, hsem, htw2, hnil2]
        · simp [matchCursorPos, htw, hsem, htw2, hsem2]
        · simp [matchCursorPos, htw, hsem, htw2, hm2]
    · simp [matchCursorPos, htw, hm]

/-! ## SGR-sequence shape lemmas -/

theorem params_run {w s : List Char} (hw : ∀ c ∈ w, isParamChar c = true) :
    (w ++ 'm' :: s).takeWhile isParamChar = w ∧
    (w ++ 'm' :: s).dropWhile isParamChar = 'm' :: s := by
  induction w with
  | nil =>
    constructor <;>
      simp [List.takeWhile, List.dropWhile, show isParamChar 'm' = false from by decide]
  | cons c w2 ih =>
    have hc := hw c (List.mem_cons_self c w2)
    have hw2 : ∀ x ∈ w2, isParamChar x = true := fun x hx =>
      hw x (List.mem_cons_of_mem c hx)
    obtain ⟨ih1, ih2⟩ := ih hw2
    constructor <;> simp [List.takeWhile, List.dropWhile, hc, ih1, ih2]

theorem params_run_all {p : List Char} (hp : ∀ c ∈ p, isParamChar c = true) :
    p.takeWhile isParamChar = p ∧ p.dropWhile isParamChar = [] := by
  induction p with
  | nil => exact ⟨rfl, rfl⟩
  | cons c p2 ih =>
    have hc := hp c (List.mem_cons_self c p2)
    have hp2 : ∀ x ∈ p2, isParamChar x = true := fun x hx =>
      hp x (List.mem_cons_of_mem c hx)
    obtain ⟨ih1, ih2⟩ := ih hp2
    constructor <;> simp [List.takeWhile, List.dropWhile, hc, ih1, ih2]

theorem matchSGR_shape {w s : List Char}
    (hw : ∀ c ∈ w, isParamChar c = true) :
    matchSGR (esc :: '[' :: (w ++ 'm' :: s)) = some (w, s) := by
  obtain ⟨h1, h2⟩ := @params_run w s hw
  simp [matchSGR, h1, h2]

theorem matchSGR_prefix_params {p : List Char}
    (hp : ∀ c ∈ p, isParamChar c = true) :
    matchSGR (esc :: '[' :: p) = none := by
  obtain ⟨-, h2⟩ := params_run_all hp
  simp [matchSGR, h2]

theorem hasSGRmatch_noEsc {t : List Char} (hE : esc ∉ t) :
    hasSGRmatch t = false := by
  induction t with
  | nil => rfl
  | cons c cs ih =>
    have hc : c ≠ esc := fun hh => hE (hh ▸ List.mem_cons_self c cs)
    have h1 : esc ∉ cs := fun hx => hE (List.mem_cons_of_mem c hx)
    simp [hasSGRmatch, matchSGR_head cs hc, ih h1]

theorem hasSGRmatch_append {a : List Char} (t : List Char) (hE : esc ∉ a) :
    hasSGRmatch (a ++ t) = hasSGRmatch t := by
  induction a with
  | nil => rfl
  | cons c a2 ih =>
    have hc : c ≠ esc := fun hh => hE (hh ▸ List.mem_cons_self c a2)
    have h1 : esc ∉ a2 := fun hx => hE (List.mem_cons_of_mem c hx)
    simp [hasSGRmatch, matchSGR_head _ hc, ih h1]

theorem no_esc_bracket_params {p : List Char}
    (hp : ∀ c ∈ p, isParamChar c = true) : esc ∉ '[' :: p := by
  intro hmem
  rcases List.mem_cons.mp hmem with h | h
  · exact absurd h (by decide)
  · exact params_no_esc hp h

theorem hasSGRmatch_pref {s1 p : List Char} (h1 : esc ∉ s1)
    (hp : ∀ c ∈ p, isParamChar c = true) :
    hasSGRmatch (s1 ++ esc :: '[' :: p) = false := by
  rw [hasSGRmatch_append _ h1]
  simp [hasSGRmatch, matchSGR_prefix_params hp,
    matchSGR_head p (show '[' ≠ esc from by decide),
    hasSGRmatch_noEsc (params_no_esc hp)]

/-! ## SGR scan evaluation lemmas -/

theorem sgrScanAux_nilfuel (st : ParserState) (pend u : List Char) :
    sgrScanAux st pend [] u = ([], st, pend.reverse ++ u) := by
  cases u <;> simp [sgrScanAux]

theorem sgrScanAux_no_match {t : List Char} (h : hasSGRmatch t = false)
    (st : ParserState) (pend f : List Char) :
    sgrScanAux st pend f t = ([], st, pend.reverse ++ t) := by
  induction t generalizing pend f with
  | nil => cases f <;> simp [sgrScanAux]
  | cons c cs ih =>
    have hm : matchSGR (c :: cs) = none := by
      cases hmm : matchSGR (c :: cs) with
      | none => rfl
      | some v => simp [hasSGRmatch, hmm] at h
    have hcs : hasSGRmatch cs = false := by
      simpa [hasSGRmatch, hm] using h
    cases f with
    | nil => simp [sgrScanAux_nilfuel]
    | cons f0 fs =>
      have hstep : sgrScanAux st pend (f0 :: fs) (c :: cs)
          = sgrScanAux st (c :: pend) fs cs := by
        simp [sgrScanAux, hm]
      rw [hstep, ih hcs]
      simp

theorem sgrScanAux_skip {a : List Char} (hE : esc ∉ a) (st : ParserState)
    (pend f t : List Char) :
    sgrScanAux st pend f (a ++ t)
      = sgrScanAux st (a.reverse ++ pend) (f.drop a.length) t := by
  induction a generalizing pend f with
  | nil => simp
  | cons c a2 ih =>
    have hc : c ≠ esc := fun hh => hE (hh ▸ List.mem_cons_self c a2)
    have h1 : esc ∉ a2 := fun hx => hE (List.mem_cons_of_mem c hx)
    cases f with
    | nil =>
      rw [sgrScanAux_nilfuel, List.drop_nil, sgrScanAux_nilfuel]
      simp
    | cons f0 fs =>
      have hm : matchSGR (c :: (a2 ++ t)) = none := matchSGR_head _ hc
      have hstep : sgrScanAux st pend (f0 :: fs) (c :: (a2 ++ t))
          = sgrScanAux st (c :: pend) fs (a2 ++ t) := by
        simp [sgrScanAux, hm]
      rw [List.cons_append, hstep, ih h1]
      simp

theorem sgrScanAux_fire {w s2 : List Char}
    (hw : ∀ c ∈ w, isParamChar c = true) (hs : esc ∉ s2)
    (st : ParserState) (pend : List Char) (f0 : Char) (fs : List Char) :
    sgrScanAux st pend (f0 :: fs) (esc :: '[' :: (w ++ 'm' :: s2)) =
      ((if pend.isEmpty then []
        else [RenderOp.insert pend.reverse (get_current_format st)]),
       parse_escape_sequence st w, s2) := by
  have hm := @matchSGR_shape w s2 hw
  have hns : hasSGRmatch s2 = false := hasSGRmatch_noEsc hs
  simp [sgrScanAux, hm, sgrScanAux_no_match hns]

/-! ## Incomplete-suffix lemmas -/

theorem isIncompleteSGR_head {c : Char} (cs : List Char) (h : c ≠ esc) :
    isIncompleteSGR (c :: cs) = false := by
  rcases cs with - | ⟨b, r⟩ <;> simp [isIncompleteSGR, h]

theorem incompleteSplit_noEsc {t : List Char} (hE : esc ∉ t) :
    incompleteSplit t = (t, []) := by
  induction t with
  | nil => rfl
  | cons c cs ih =>
    have hc : c ≠ esc := fun hh => hE (hh ▸ List.mem_cons_self c cs)
    have h1 : esc ∉ cs := fun hx => hE (List.mem_cons_of_mem c hx)
    simp [incompleteSplit, isIncompleteSGR_head cs hc, ih h1]

theorem incompleteSplit_pref {s1 p : List Char} (h1 : esc ∉ s1)
    (hp : ∀ c ∈ p, isParamChar c = true) :
    incompleteSplit (s1 ++ esc :: '[' :: p) = (s1, esc :: '[' :: p) := by
  induction s1 with
  | nil =>
    have hinc : isIncompleteSGR (esc :: '[' :: p) = true := by
      simp [isIncompleteSGR, List.all_eq_true.mpr hp]
    simp [incompleteSplit, hinc]
  | cons c s2 ih =>
    have hc : c ≠ esc := fun hh => h1 (hh ▸ List.mem_cons_self c s2)
    have h2 : esc ∉ s2 := fun hx => h1 (List.mem_cons_of_mem c hx)
    have hhead : isIncompleteSGR (c :: (s2 ++ esc :: '[' :: p)) = false :=
      isIncompleteSGR_head _ hc
    simp [incompleteSplit, hhead, ih h2]

/-! ## Pipeline evaluation lemmas -/

theorem stage_facts (s1 tail : List Char) (hS1 : esc ∉ s1) (hT : esc ∉ tail)
    (hPT : pTail tail = true) :
    hasSubstr seq2J (s1 ++ esc :: '[' :: tail) = false ∧
    hasSubstr seq3J (s1 ++ esc :: '[' :: tail) = false ∧
    hasSubstr seqHome (s1 ++ esc :: '[' :: tail) = false ∧
    scrub matchCursorVis (s1 ++ esc :: '[' :: tail) = s1 ++ esc :: '[' :: tail ∧
    scrub matchCursorPos (s1 ++ esc :: '[' :: tail) = s1 ++ esc :: '[' :: tail ∧
    scrub matchColOps (s1 ++ esc :: '[' :: tail) = s1 ++ esc :: '[' :: tail ∧
    scrub matchEscK (s1 ++ esc :: '[' :: tail) = s1 ++ esc :: '[' :: tail := by
  have hBr : esc ∉ '[' :: tail := by
    intro hmem
    rcases List.mem_cons.mp hmem with h | h
    · exact absurd h (by decide)
    · exact hT h
  refine ⟨?_, ?_, ?_, ?_, ?_, ?_, ?_⟩
  · rw [show seq2J = esc :: ['[', '2', 'J'] from rfl, hasSubstr_append_esc _ _ hS1]
    simp [hasSubstr, startsWithL, startsWithL_ptail_2J (Or.inl rfl) hPT,
      hasSubstr_esc_false hBr, hasSubstr_esc_false hT,
      show ¬ esc = '[' from by decide]
  · rw [show seq3J = esc :: ['[', '3', 'J'] from rfl, hasSubstr_append_esc _ _ hS1]
    simp [hasSubstr, startsWithL, startsWithL_ptail_2J (Or.inr rfl) hPT,
      hasSubstr_esc_false hBr, hasSubstr_esc_false hT,
      show ¬ esc = '[' from by decide]
  · rw [show seqHome = esc :: ['[', 'H'] from rfl, hasSubstr_append_esc _ _ hS1]
    simp [hasSubstr, startsWithL, startsWithL_ptail_H hPT,
      hasSubstr_esc_false hBr, hasSubstr_esc_false hT,
      show ¬ esc = '[' from by decide]
  · exact scrub_split _ (fun c cs h => matchCursorVis_head cs h) s1 _ hS1
      (matchCursorVis_ptail hPT) hBr
  · exact scrub_split _ (fun c cs h => matchCursorPos_head cs h) s1 _ hS1
      (matchCursorPos_ptail hPT) hBr
  · exact scrub_split _ (fun c cs h => matchColOps_head cs h) s1 _ hS1
      (matchColOps_ptail hPT) hBr
  · exact scrub_split _ (fun c cs h => matchEscK_head cs h) s1 _ hS1
      (matchEscK_ptail hPT) hBr

theorem process_pref (st : ParserState) (s1 p : List Char)
    (h1 : esc ∉ s1) (hc1 : '\r' ∉ s1)
    (hp : ∀ c ∈ p, isParamChar c = true) :
    process_buffered_data st (s1 ++ esc :: '[' :: p) =
      ((if s1.isEmpty then []
        else [RenderOp.insert s1 (get_current_format st)]),
       st, esc :: '[' :: p) := by
  have hTE : esc ∉ p := params_no_esc hp
  have hPT : pTail p = true := by
    simpa using pTail_params_append hp (Or.inl rfl)
  obtain ⟨f2, f3, fH, fV, fP, fG, fK⟩ := stage_facts s1 p h1 hTE hPT
  have hCr : '\r' ∉ s1 ++ esc :: '[' :: p := by
    intro hmem
    rcases List.mem_append.mp hmem with h | h
    · exact hc1 h
    · rcases List.mem_cons.mp h with h | h
      · exact absurd h (by decide)
      · rcases List.mem_cons.mp h with h | h
        · exact absurd h (by decide)
        · exact params_no_cr hp h
  have fCRLF : hasSubstr seqCRLF (s1 ++ esc :: '[' :: p) = false :=
    hasSubstr_crlf_false_no_cr hCr
  have fCR : hasSubstr ['\r'] (s1 ++ esc :: '[' :: p) = false :=
    hasSubstr_single_false hCr
  have fScan : sgrScan st (s1 ++ esc :: '[' :: p)
      = ([], st, s1 ++ esc :: '[' :: p) := by
    rw [sgrScan, sgrScanAux_no_match (hasSGRmatch_pref h1 hp)]
    simp
  have fInc := incompleteSplit_pref h1 hp
  simp [process_buffered_data, f2, f3, fH, fV, fP, fG, fK, fCRLF, fCR,
    fScan, fInc]

theorem process_sgr_stream (st : ParserState) (s1 w s2 : List Char)
    (h1 : esc ∉ s1) (hc1 : '\r' ∉ s1)
    (hw : ∀ c ∈ w, isParamChar c = true)
    (h2 : esc ∉ s2) (hc2 : '\r' ∉ s2) :
    process_buffered_data st (s1 ++ esc :: '[' :: (w ++ 'm' :: s2)) =
      ((if s1.isEmpty then []
        else [RenderOp.insert s1 (get_current_format st)]) ++
       (if s2.isEmpty then []
        else [RenderOp.insert s2
          (get_current_format (parse_escape_sequence st w))]),
       parse_escape_sequence st w, []) := by
  have hTE : esc ∉ w ++ 'm' :: s2 := by
    intro hmem
    rcases List.mem_append.mp hmem with h | h
    · exact params_no_esc hw h
    · rcases List.mem_cons.mp h with h | h
      · exact absurd h (by decide)
      · exact h2 h
  have hPT : pTail (w ++ 'm' :: s2) = true :=
    pTail_params_append hw (Or.inr ⟨s2, rfl⟩)
  obtain ⟨f2, f3, fH, fV, fP, fG, fK⟩ := stage_facts s1 _ h1 hTE hPT
  have hCr : '\r' ∉ s1 ++ esc :: '[' :: (w ++ 'm' :: s2) := by
    intro hmem
    rcases List.mem_append.mp hmem with h | h
    · exact hc1 h
    · rcases List.mem_cons.mp h with h | h
      · exact absurd h (by decide)
      · rcases List.mem_cons.mp h with h | h
        · exact absurd h (by decide)
        · rcases List.mem_append.mp h with h | h
          · exact params_no_cr hw h
          · rcases List.mem_cons.mp h with h | h
            · exact absurd h (by decide)
            · exact hc2 h
  have fCRLF : hasSubstr seqCRLF (s1 ++ esc :: '[' :: (w ++ 'm' :: s2))
      = false := hasSubstr_crlf_false_no_cr hCr
  have fCR : hasSubstr ['\r'] (s1 ++ esc :: '[' :: (w ++ 'm' :: s2))
      = false := hasSubstr_single_false hCr
  have fScan : sgrScan st (s1 ++ esc :: '[' :: (w ++ 'm' :: s2)) =
      ((if s1.isEmpty then []
        else [RenderOp.insert s1 (get_current_format st)]),
       parse_escape_sequence st w, s2) := by
    rw [sgrScan, sgrScanAux_skip h1]
    rw [List.drop_left]
    rw [sgrScanAux_fire hw h2]
    simp
  have fInc := incompleteSplit_noEsc h2
  simp [process_buffered_data, f2, f3, fH, fV, fP, fG, fK, fCRLF, fCR,
    fScan, fInc]

/-! ## Claim C3 -/

/-- C3: a chunk of same-line carriage-return redraws (no newline, no
escape sequence, at least one CR, here written a CR b with b the text
after the last CR) is rendered as a single overwrite of the current
line carrying the final frame: one clear-current-line operation and one
insert of exactly the text after the last carriage return, with nothing
retained in the buffer and the style state untouched. -/
theorem cr_chunk_overwrites_line (st : ParserState) (a b : List Char)
    (ha1 : esc ∉ a) (ha2 : '\n' ∉ a)
    (hb1 : esc ∉ b) (hb2 : '\n' ∉ b) (hb3 : '\r' ∉ b) :
    process_buffered_data st (a ++ '\r' :: b) =
      ([RenderOp.clearCurrentLine] ++
        (if b.isEmpty then []
         else [RenderOp.insert b (get_current_format st)]),
       st, []) := by
  have hTE : esc ∉ a ++ '\r' :: b := by
    intro hmem
    rcases List.mem_append.mp hmem with h | h
    · exact ha1 h
    · rcases List.mem_cons.mp h with h | h
      · exact absurd h (by decide)
      · exact hb1 h
  have hLF : '\n' ∉ a ++ '\r' :: b := by
    intro hmem
    rcases List.mem_append.mp hmem with h | h
    · exact ha2 h
    · rcases List.mem_cons.mp h with h | h
      · exact absurd h (by decide)
      · exact hb2 h
  have f2 : hasSubstr seq2J (a ++ '\r' :: b) = false := hasSubstr_esc_false hTE
  have f3 : hasSubstr seq3J (a ++ '\r' :: b) = false := hasSubstr_esc_false hTE
  have fH : hasSubstr seqHome (a ++ '\r' :: b) = false := hasSubstr_esc_false hTE
  have fV := scrub_noEsc _ (fun c cs h => matchCursorVis_head cs h) _ hTE
  have fP := scrub_noEsc _ (fun c cs h => matchCursorPos_head cs h) _ hTE
  have fG := scrub_noEsc _ (fun c cs h => matchColOps_head cs h) _ hTE
  have fK := scrub_noEsc _ (fun c cs h => matchEscK_head cs h) _ hTE
  have fCRLF : hasSubstr seqCRLF (a ++ '\r' :: b) = false :=
    hasSubstr_crlf_false hLF
  have fCR : hasSubstr ['\r'] (a ++ '\r' :: b) = true :=
    (hasSubstr_single '\r' _).mpr (by simp)
  have fCol : crCollapse (a ++ '\r' :: b) = b := by
    rw [crCollapse_single_line hLF, crSegment_after_last hb3]
  have fScan : sgrScan st b = ([], st, b) := by
    rw [sgrScan, sgrScanAux_no_match (hasSGRmatch_noEsc hb1)]
    simp
  have fInc := incompleteSplit_noEsc hb1
  simp [process_buffered_data, f2, f3, fH, fV, fP, fG, fK, fCRLF, fCR,
    fCol, fScan, fInc]

/-- Witness for C3: the chunk progress 10 percent CR progress 55
percent CR progress 100 percent renders as exactly one
clear-current-line followed by one insert of progress 100 percent. -/
theorem cr_chunk_overwrites_line_witness :
    process_buffered_data resetState
        "progress 10%\rprogress 55%\rprogress 100%".toList =
      ([RenderOp.clearCurrentLine,
        RenderOp.insert "progress 100%".toList
          (get_current_format resetState)], resetState, []) := by
  have h := cr_chunk_overwrites_line resetState
    "progress 10%\rprogress 55%".toList "progress 100%".toList
    (by decide) (by decide) (by decide) (by decide) (by decide)
  simpa using h

theorem feedAll_cons (tv : TermView) (c : List Char) (cs : List (List Char)) :
    feedAll tv (c :: cs) = (feed tv c).1 ++ feedAll (feed tv c).2 cs := rfl

/-! ## Claim C1 -/

/-- Counterexample to C1 as stated: the stream a CR LF fed as one chunk
inserts the text a LF, but fed as the two chunks a CR and LF the first
chunk triggers the carriage-return overwrite path, which drops the a
before the carriage return and clears the current line, so the two op
sequences differ (and the byte a is lost across the boundary). -/
theorem split_invariance_cex :
    feedAll initView ["a\r".toList, "\n".toList]
      ≠ feedAll initView ["a\r\n".toList] := by decide

/-- C1 amended: the partial-sequence buffer does make parsing invariant
for a chunk boundary that falls inside an SGR escape sequence.  For a
stream of escape-free, carriage-return-free text around one SGR
sequence, splitting the stream anywhere after the sequence's ESC
bracket introducer and before its terminating m yields exactly the
render operations of the unsplit stream: the parameter run is carried
over the boundary, no byte is lost or duplicated.  In general the
claimed invariance over every split fails (see the counterexample):
the carriage-return overwrite path makes the rendering of CR text
depend on chunk boundaries, and a boundary in plain text splits one
insert operation in two. -/
theorem split_inside_sgr_invariant (st : ParserState) (s1 p q s2 : List Char)
    (h1 : esc ∉ s1) (hc1 : '\r' ∉ s1)
    (hp : ∀ c ∈ p, isParamChar c = true)
    (hq : ∀ c ∈ q, isParamChar c = true)
    (h2 : esc ∉ s2) (hc2 : '\r' ∉ s2) :
    feedAll { ansi := st, buffer := [] }
        [s1 ++ esc :: '[' :: p, q ++ 'm' :: s2]
      = feedAll { ansi := st, buffer := [] }
          [s1 ++ esc :: '[' :: ((p ++ q) ++ 'm' :: s2)] := by
  have hpq : ∀ c ∈ p ++ q, isParamChar c = true := by
    intro c hc
    rcases List.mem_append.mp hc with h | h
    · exact hp c h
    · exact hq c h
  have hfeed1 : feed { ansi := st, buffer := [] } (s1 ++ esc :: '[' :: p)
      = ((if s1.isEmpty then []
          else [RenderOp.insert s1 (get_current_format st)]),
         { ansi := st, buffer := esc :: '[' :: p }) := by
    simp [feed, process_pref st s1 p h1 hc1 hp]
  have hwhole := process_sgr_stream st [] (p ++ q) s2 (by simp) (by simp)
    hpq h2 hc2
  have hwhole2 : process_buffered_data st
      (esc :: '[' :: (p ++ (q ++ 'm' :: s2))) =
      ((if s2.isEmpty then []
        else [RenderOp.insert s2
          (get_current_format (parse_escape_sequence st (p ++ q)))]),
       parse_escape_sequence st (p ++ q), []) := by
    rw [show esc :: '[' :: (p ++ (q ++ 'm' :: s2))
        = ([] : List Char) ++ esc :: '[' :: ((p ++ q) ++ 'm' :: s2) from by
      simp]
    rw [hwhole]
    simp
  have hfeed2 : feed { ansi := st, buffer := esc :: '[' :: p } (q ++ 'm' :: s2)
      = ((if s2.isEmpty then []
          else [RenderOp.insert s2
            (get_current_format (parse_escape_sequence st (p ++ q)))]),
         { ansi := parse_escape_sequence st (p ++ q), buffer := [] }) := by
    simp [feed, hwhole2]
  have hrhs := process_sgr_stream st s1 (p ++ q) s2 h1 hc1 hpq h2 hc2
  have hrhs2 : process_buffered_data st
      (s1 ++ esc :: '[' :: (p ++ (q ++ 'm' :: s2))) =
      ((if s1.isEmpty then []
        else [RenderOp.insert s1 (get_current_format st)]) ++
       (if s2.isEmpty then []
        else [RenderOp.insert s2
          (get_current_format (parse_escape_sequence st (p ++ q)))]),
       parse_escape_sequence st (p ++ q), []) := by
    rw [show s1 ++ esc :: '[' :: (p ++ (q ++ 'm' :: s2))
        = s1 ++ esc :: '[' :: ((p ++ q) ++ 'm' :: s2) from by simp]
    exact hrhs
  have hfw : feed { ansi := st, buffer := [] }
      (s1 ++ esc :: '[' :: ((p ++ q) ++ 'm' :: s2))
      = ((if s1.isEmpty then []
          else [RenderOp.insert s1 (get_current_format st)]) ++
         (if s2.isEmpty then []
          else [RenderOp.insert s2
            (get_current_format (parse_escape_sequence st (p ++ q)))]),
         { ansi := parse_escape_sequence st (p ++ q), buffer := [] }) := by
    simp [feed, hrhs2]
  rw [feedAll_cons, hfeed1]
  dsimp only
  rw [feedAll_cons, hfeed2]
  dsimp only
  rw [feedAll_cons, hfw]
  dsimp only
  simp [feedAll]

/-- Witness for C1 amended: the stream AB ESC[31m CD split into the
chunks AB ESC[3 and 1mCD renders exactly like the unsplit stream. -/
theorem split_inside_sgr_invariant_witness :
    feedAll { ansi := resetState, buffer := [] }
        ["AB".toList ++ esc :: '[' :: ['3'], ['1'] ++ 'm' :: "CD".toList]
      = feedAll { ansi := resetState, buffer := [] }
          ["AB".toList ++ esc :: '[' :: ((['3'] ++ ['1']) ++ 'm' :: "CD".toList)] :=
  split_inside_sgr_invariant resetState "AB".toList ['3'] ['1'] "CD".toList
    (by decide) (by decide) (by decide) (by decide) (by decide) (by decide)

end TermEngine
